import Mathlib

/-!
Verification of the cssguard pattern-learning and classification engine.

This file gives a shallow embedding of the engine of the cssguard
repository — the trainer (`pkg/trainer/trainer.go`) and the validator
(package `validator`) — and proves or refutes the specification claims
about it.

Modelling conventions:
* Go `map[string]struct{}` sets are modelled as `Finset String` where the
  iteration order is observably irrelevant, and as `List String`
  (an explicit iteration order of the set) where the Go code's behaviour
  depends on the unspecified map iteration order (the trainer's `examples`
  field).  Go map iteration order is unspecified, so `Train` is modelled
  as a function of the iteration order; the trainer's outer loop over
  prefix groups is modelled in sorted-key order, which is inessential
  because the final configuration re-sorts patterns (by their distinct
  names) and literal classes.
* Go `float64` is modelled as `ℚ`.  Every claim about coverage values in
  this file concerns the exact values `0` and `100`, which float64
  represents exactly, so no rounding behaviour is lost.
* Compiled regular expressions (`regexp.Regexp`) are modelled as boolean
  match functions `String → Bool`; `regexp.Compile` is modelled as an
  abstract parameter `compile : String → Option (String → Bool)` where a
  `none` result is a compilation failure.
* Go's `sort.Strings` / `sort.Slice` are modelled by insertion sort; the
  keys being sorted are distinct in every use below, so any correct
  sorting algorithm produces the same list.
-/

/-- ASCII digit test: Go's regexp `\d` (RE2 `\d` is exactly `[0-9]`). -/
def isDigitCh (c : Char) : Bool := c.isDigit

/-- Character class `[a-zA-Z-]` of the trainer's structural-prefix regex. -/
def isAlphaHyphen (c : Char) : Bool := c.isAlpha || c = '-'

/-- Does a character list start with an ASCII digit? -/
def headIsDigit : List Char → Bool
  | [] => false
  | c :: _ => c.isDigit

/-- After the lazily captured group of `^([a-zA-Z-]+?)(?:-?\d|$)`, the rest of
the token must match `(?:-?\d|$)` at its start: it is empty, starts with a
digit, or starts with a hyphen followed by a digit. -/
def restOk (s : List Char) : Bool :=
  match s with
  | [] => true
  | c :: r => c.isDigit || (c = '-' && headIsDigit r)

/-- Length of the lazily (shortest-first) captured group of the trainer's
structural-prefix regex `^([a-zA-Z-]+?)(?:-?\d|$)` (`groupByPrefix` in
`trainer.go`), or `none` when the regex does not match. -/
def scanPfxN : List Char → Option Nat
  | [] => none
  | c :: rest =>
    if isAlphaHyphen c then
      if restOk rest then some 1
      else
        match scanPfxN rest with
        | some n => some (n + 1)
        | none => none
    else none

/-- The structural prefix `groupByPrefix` assigns a class: the capture of
`^([a-zA-Z-]+?)(?:-?\d|$)` when the regex matches, and the whole class
otherwise. -/
def extractPfx (cls : String) : String :=
  match scanPfxN cls.data with
  | some n => String.mk (cls.data.take n)
  | none => cls

/-- Go `strings.TrimPrefix s p`: drop `p` from the front of `s` when `s`
starts with `p`, else return `s` unchanged. -/
def trimPfxStr (s p : String) : String :=
  if s.data.take p.data.length = p.data then String.mk (s.data.drop p.data.length) else s

/-- The suffix `generatePattern` extracts from a class of a group:
`strings.TrimPrefix(class, prefix)` then `strings.TrimPrefix(·, "-")`. -/
def suffixOf (pfx cls : String) : String :=
  trimPfxStr (trimPfxStr cls pfx) "-"

/-- The group of a structural prefix: the classes of the training set whose
structural prefix is `pfx`, in training-set iteration order (the order in
which `groupByPrefix` appends them to the group's slice). -/
def groupOf (classes : List String) (pfx : String) : List String :=
  classes.filter (fun c => extractPfx c = pfx)

/-- Go's `regexp.QuoteMeta` special set: `\.+*?()|[]{}^$`. -/
def isSpecialMeta (c : Char) : Bool :=
  c = '\\' || c = '.' || c = '+' || c = '*' || c = '?' || c = '(' || c = ')' ||
  c = '|' || c = '[' || c = ']' || c = Char.ofNat 123 || c = Char.ofNat 125 ||
  c = '^' || c = '$'

/-- One character of `regexp.QuoteMeta` output: escaped when special. -/
def escChar (c : Char) : List Char :=
  if isSpecialMeta c then ['\\', c] else [c]

/-- Go's `regexp.QuoteMeta`: escape every special character with a
backslash.  (All special characters are ASCII, so the Go byte loop and this
character loop agree.) -/
def quoteMeta (s : String) : String :=
  String.mk (s.data.map escChar).flatten

/-- Full-string match of `^\d+$`: non-empty and all digits. -/
def isNumericSfx (s : String) : Bool :=
  !s.data.isEmpty && s.data.all (fun c => c.isDigit)

/-- Full-string match of `^[a-zA-Z]+$`: non-empty and all ASCII letters. -/
def isWordSfx (s : String) : Bool :=
  !s.data.isEmpty && s.data.all (fun c => c.isAlpha)

/-- Go `strings.Join(parts, "|")`. -/
def joinBar : List String → String
  | [] => ""
  | [s] => s
  | s :: rest => s ++ "|" ++ joinBar rest

/-- Lexicographic comparison of character lists by code point.  UTF-8 byte
order coincides with code-point order, so this is exactly Go's `<=` on
strings (the order `sort.Strings` uses). -/
def charsLe : List Char → List Char → Bool
  | [], _ => true
  | _ :: _, [] => false
  | a :: as, b :: bs =>
    if a.toNat < b.toNat then true
    else if b.toNat < a.toNat then false
    else charsLe as bs

/-- Go's string order, as a proposition. -/
def lexLe (a b : String) : Prop := charsLe a.data b.data = true

instance : DecidableRel lexLe :=
  fun a b => inferInstanceAs (Decidable (charsLe a.data b.data = true))

/-- `sort.Strings`: lexicographically sort a list of strings. -/
def sortStr (l : List String) : List String :=
  List.insertionSort lexLe l

/-- A learned regex pattern with metadata (`trainer.Pattern`). -/
structure Pattern where
  name : String
  regex : String
  description : String
  examples : List String
  count : Nat
deriving DecidableEq, Repr

/-- The trained configuration (`trainer.Config`). -/
structure Config where
  version : String
  patterns : List Pattern
  literalClasses : List String
  ignored : List String
deriving DecidableEq, Repr

/-- Name order on patterns, used by `Train`'s `sort.Slice` call. -/
def patLE (a b : Pattern) : Prop := lexLe a.name b.name

instance : DecidableRel patLE := fun a b => inferInstanceAs (Decidable (lexLe a.name b.name))

/-- Sort patterns by name (`sort.Slice` in `Train`; all names in every use
below are distinct, so stability and algorithm choice are irrelevant). -/
def sortPats (l : List Pattern) : List Pattern :=
  List.insertionSort patLE l

/-- `generatePattern` of `trainer.go`: build one generalizing pattern for a
prefix group, or `none` when the group has no non-empty suffixes.  The set
of distinct suffixes (a Go map) is modelled as a deduplicated list; its
order is irrelevant because the regex alternatives are sorted before being
joined. -/
def generatePattern (pfx : String) (classes : List String) : Option Pattern :=
  let sfx := ((classes.map (suffixOf pfx)).filter (fun s => s ≠ "")).dedup
  if sfx = [] then none
  else
    let hasNumbers := sfx.any isNumericSfx
    let hasWords := sfx.any isWordSfx
    let regexParts := (sfx.filter (fun s => !isNumericSfx s)).map
      (fun s => if isWordSfx s then s else quoteMeta s)
    let cleanPfx := quoteMeta pfx
    let examples := if classes.length > 5 then classes.take 5 else classes
    let mk := fun (rx : String) =>
      Pattern.mk pfx rx ("Matches " ++ pfx ++ "-* utility classes") examples classes.length
    if hasNumbers && hasWords then
      some (mk ("^" ++ cleanPfx ++ "-?(\\d+|" ++ joinBar (sortStr regexParts) ++ ")$"))
    else if hasNumbers then
      some (mk ("^" ++ cleanPfx ++ "-?\\d+$"))
    else if regexParts ≠ [] then
      some (mk ("^" ++ cleanPfx ++ "-?(" ++ joinBar (sortStr regexParts) ++ ")$"))
    else none

/-- The curated Tailwind catalogue of `addTailwindPatterns`, transcribed
verbatim from `trainer.go` (examples nil, count zero). -/
def tailwindPatterns : List Pattern :=
  [ Pattern.mk "spacing" "^(m|p)(t|r|b|l|x|y)?-(\\d+|auto|px)$" "Margin and padding utilities" [] 0
  , Pattern.mk "sizing" "^(w|h|min-w|min-h|max-w|max-h)-(\\d+|auto|full|screen|min|max|fit)$" "Width and height utilities" [] 0
  , Pattern.mk "flex" "^(flex|grow|shrink|basis)-?(.*)$" "Flexbox utilities" [] 0
  , Pattern.mk "grid" "^(grid|col|row|gap)-?(.*)$" "Grid utilities" [] 0
  , Pattern.mk "text" "^text-(xs|sm|base|lg|xl|\\d*xl|left|center|right|justify|[a-z]+-\\d+)$" "Text utilities" [] 0
  , Pattern.mk "font" "^font-(sans|serif|mono|thin|light|normal|medium|semibold|bold|extrabold|black)$" "Font utilities" [] 0
  , Pattern.mk "bg" "^bg-(transparent|current|black|white|[a-z]+-\\d+|gradient-.+)$" "Background utilities" [] 0
  , Pattern.mk "border" "^border(-[trbl])?(-\\d+)?(-[a-z]+-\\d+)?$" "Border utilities" [] 0
  , Pattern.mk "rounded" "^rounded(-[tlrb]\x7b1,2\x7d)?(-none|-sm|-md|-lg|-xl|-2xl|-3xl|-full)?$" "Border radius utilities" [] 0
  , Pattern.mk "shadow" "^shadow(-none|-sm|-md|-lg|-xl|-2xl|-inner)?$" "Shadow utilities" [] 0
  , Pattern.mk "opacity" "^opacity-\\d+$" "Opacity utilities" [] 0
  , Pattern.mk "z-index" "^z-(\\d+|auto)$" "Z-index utilities" [] 0
  , Pattern.mk "transition" "^transition(-all|-colors|-opacity|-shadow|-transform|-none)?$" "Transition utilities" [] 0
  , Pattern.mk "duration" "^duration-\\d+$" "Duration utilities" [] 0
  , Pattern.mk "ease" "^ease-(linear|in|out|in-out)$" "Easing utilities" [] 0
  , Pattern.mk "translate" "^-?translate-[xy]-(\\d+|full|px)$" "Transform translate utilities" [] 0
  , Pattern.mk "rotate" "^-?rotate-\\d+$" "Transform rotate utilities" [] 0
  , Pattern.mk "scale" "^scale-[xy]?-?\\d+$" "Transform scale utilities" [] 0
  , Pattern.mk "animate" "^animate-(none|spin|ping|pulse|bounce)$" "Animation utilities" [] 0
  , Pattern.mk "cursor" "^cursor-(auto|default|pointer|wait|text|move|not-allowed)$" "Cursor utilities" [] 0
  , Pattern.mk "select" "^select-(none|text|all|auto)$" "User select utilities" [] 0
  , Pattern.mk "overflow" "^overflow(-[xy])?-(auto|hidden|visible|scroll)$" "Overflow utilities" [] 0
  , Pattern.mk "position" "^(static|fixed|absolute|relative|sticky)$" "Position utilities" [] 0
  , Pattern.mk "inset" "^(inset|top|right|bottom|left)-(\\d+|auto|px|full)$" "Position inset utilities" [] 0
  , Pattern.mk "display" "^(block|inline-block|inline|flex|inline-flex|grid|inline-grid|hidden)$" "Display utilities" [] 0
  , Pattern.mk "visibility" "^(visible|invisible)$" "Visibility utilities" [] 0 ]

/-- The distinct structural-prefix keys of the training set (the keys of the
`groupByPrefix` map), enumerated in sorted order; see the modelling note at
the top of the file. -/
def pfxKeys (classes : List String) : List String :=
  sortStr ((classes.map extractPfx).dedup)

/-- `Trainer.Train`: group by structural prefix, synthesize a pattern for
every group of size at least 3, retain smaller groups verbatim as literal
classes, merge the curated Tailwind catalogue for names not already learned,
and sort patterns by name and literal classes lexicographically.  The input
list is the iteration order of the training class set. -/
def Train (classes : List String) : Config :=
  let keys := pfxKeys classes
  let learned := keys.filterMap (fun p =>
    let g := groupOf classes p
    if 3 ≤ g.length then generatePattern p g else none)
  let literals := (keys.filter (fun p => (groupOf classes p).length < 3)).flatMap
    (fun p => groupOf classes p)
  let learnedNames := learned.map Pattern.name
  let curated := tailwindPatterns.filter (fun p => !learnedNames.contains p.name)
  Config.mk "1.0.0" (sortPats (learned ++ curated)) (sortStr literals) []

/-- The validation result (`validator.Result`); `float64` modelled as `ℚ`. -/
structure VResult where
  htmlClasses : Nat
  cssClasses : Nat
  orphans : List String
  unused : List String
  matched : Nat
  orphanCount : Nat
  unusedCount : Nat
  coveragePercent : ℚ
deriving DecidableEq, Repr

/-- Sort the elements of a finite set of strings lexicographically. -/
def sortFins (s : Finset String) : List String :=
  s.sort (· ≤ ·)

/-- `validator.ValidateDirectly`: pure set comparison of HTML classes
against CSS classes.  The Go loops over the two maps count matches and
collect the asymmetric differences; iteration order is irrelevant because
both output lists are sorted, so the maps are modelled as `Finset`s. -/
def ValidateDirectly (html css : Finset String) : VResult :=
  let orphansSet := html \ css
  let unusedSet := css \ html
  let matchedN := (html ∩ css).card
  VResult.mk html.card css.card (sortFins orphansSet) (sortFins unusedSet) matchedN
    orphansSet.card unusedSet.card
    (if 0 < html.card then (matchedN : ℚ) / (html.card : ℚ) * 100 else 0)

/-- A constructed validator (`validator.Validator`): compiled patterns in
configuration storage order, plus the two membership sets. -/
structure Validator where
  compiledPatterns : List (String → Bool)
  literalSet : Finset String
  ignoredSet : Finset String

/-- The pattern loop of `ValidateAgainstPatterns`: test compiled patterns in
storage order and stop at the first match. -/
def anyPatternMatch : List (String → Bool) → String → Bool
  | [], _ => false
  | re :: rest, cls => if re cls then true else anyPatternMatch rest cls

/-- Per-token classification of `ValidateAgainstPatterns`, in the code's
fixed precedence order: ignored set, then literal set, then compiled
patterns (first match wins); `true` means the token counts as matched. -/
def tokenMatched (v : Validator) (cls : String) : Bool :=
  if cls ∈ v.ignoredSet then true
  else if cls ∈ v.literalSet then true
  else anyPatternMatch v.compiledPatterns cls

/-- `Validator.ValidateAgainstPatterns`: classify each HTML class by
`tokenMatched`; orphans are the unmatched classes, sorted.  `CSSClasses`,
`Unused` and `UnusedCount` keep their Go zero values. -/
def ValidateAgainstPatterns (v : Validator) (html : Finset String) : VResult :=
  let matchedSet := html.filter (fun c => tokenMatched v c = true)
  let orphansSet := html.filter (fun c => ¬(tokenMatched v c = true))
  VResult.mk html.card 0 (sortFins orphansSet) [] matchedSet.card orphansSet.card 0
    (if 0 < html.card then (matchedSet.card : ℚ) / (html.card : ℚ) * 100 else 0)

/-- The pattern-compilation loop of `validator.New`: compile every stored
pattern in order and fail with the offending pattern's name on the first
regex that does not compile (`regexp.Compile` is the abstract `compile`
parameter; the `fmt.Errorf` value is modelled by the offending name). -/
def compileAll (compile : String → Option (String → Bool)) :
    List Pattern → Except String (List (String → Bool))
  | [] => .ok []
  | p :: rest =>
    match compile p.regex with
    | none => .error p.name
    | some re =>
      match compileAll compile rest with
      | .error e => .error e
      | .ok l => .ok (re :: l)

/-- `validator.New`: pre-compile every pattern (failing fast on an invalid
one) and build the literal and ignored membership sets. -/
def New (compile : String → Option (String → Bool)) (config : Config) :
    Except String Validator :=
  match compileAll compile config.patterns with
  | .error e => .error e
  | .ok regs => .ok (Validator.mk regs config.literalClasses.toFinset config.ignored.toFinset)

/-- One item of a bracket character class: a single alphanumeric character
or a non-empty ascending alphanumeric range.  The side conditions make every
printed class a class Go's `regexp.Compile` accepts. -/
inductive ClsItem where
  | ch (c : Char) (h : c.isAlphanum = true)
  | range (a b : Char) (ha : a.isAlphanum = true) (hb : b.isAlphanum = true) (hle : a ≤ b)

/-- Print one character-class item. -/
def ClsItem.print : ClsItem → List Char
  | .ch c _ => [c]
  | .range a b _ _ _ => [a, '-', b]

/-- Abstract syntax of the fragment of RE2 (Go's `regexp` syntax) that the
trainer emits.  The index is `true` exactly for the forms RE2 allows a
repetition operator to apply to, so every printed term — escaped literals,
`\d`, `.`, non-empty valid classes, groups, `?` `*` `+` and sane counted
repetitions on atoms, concatenation, alternation, anchors — is a string
`regexp.Compile` accepts.  This is the compilation model: a string compiles
when it is the print of some `Regex` term. -/
inductive Regex : Bool → Type where
  | eps : Regex false
  | lit (c : Char) : Regex true
  | digit : Regex true
  | dot : Regex true
  | caret : Regex false
  | dollar : Regex false
  | cls (items : List ClsItem) (h : items ≠ []) : Regex true
  | grp {b : Bool} (r : Regex b) : Regex true
  | opt (a : Regex true) : Regex false
  | star (a : Regex true) : Regex false
  | plus (a : Regex true) : Regex false
  | rep (a : Regex true) (m n : Nat) (h1 : m ≤ n) (h2 : n ≤ 1000) : Regex false
  | seq {b1 b2 : Bool} (a : Regex b1) (c : Regex b2) : Regex false
  | alt {b1 b2 : Bool} (a : Regex b1) (c : Regex b2) : Regex false

/-- Print a regex term back to RE2 concrete syntax (as a character list). -/
def Regex.print : {b : Bool} → Regex b → List Char
  | _, .eps => []
  | _, .lit c => escChar c
  | _, .digit => ['\\', 'd']
  | _, .dot => ['.']
  | _, .caret => ['^']
  | _, .dollar => ['$']
  | _, .cls items _ => '[' :: (items.map ClsItem.print).flatten ++ [']']
  | _, .grp r => '(' :: r.print ++ [')']
  | _, .opt a => a.print ++ ['?']
  | _, .star a => a.print ++ ['*']
  | _, .plus a => a.print ++ ['+']
  | _, .rep a m n _ _ =>
    a.print ++ Char.ofNat 123 :: (toString m).data ++ ',' :: (toString n).data ++ [Char.ofNat 125]
  | _, .seq a c => a.print ++ c.print
  | _, .alt a c => a.print ++ '|' :: c.print

/-- A regex string compiles (model of `regexp.Compile` succeeding): it is
the concrete syntax of some term of the RE2 fragment. -/
def compilesRE (s : String) : Prop :=
  ∃ (b : Bool) (e : Regex b), e.print = s.data

/-- A sequence of escaped literal characters (prints as `quoteMeta`). -/
def rlits : List Char → Regex false
  | [] => .eps
  | c :: rest => .seq (.lit c) (rlits rest)

/-- Boxed regex term, hiding the atomicity index. -/
def RegexS : Type := (b : Bool) × Regex b

/-- Print of a boxed regex term. -/
def RegexS.print (r : RegexS) : List Char := r.2.print

/-- Boxed concatenation. -/
def sseq (a c : RegexS) : RegexS := ⟨false, .seq a.2 c.2⟩

/-- Boxed concatenation of a list. -/
def rcat (l : List RegexS) : RegexS := l.foldr sseq ⟨false, .eps⟩

/-- Boxed grouping. -/
def sgrp (a : RegexS) : RegexS := ⟨true, .grp a.2⟩

/-- Boxed alternation. -/
def salt (a c : RegexS) : RegexS := ⟨false, .alt a.2 c.2⟩

/-- Boxed alternation of a non-empty list (empty list gives `eps`). -/
def salts : List RegexS → RegexS
  | [] => ⟨false, .eps⟩
  | x :: rest => rest.foldl salt x

/-- Literal string piece (prints as `quoteMeta` of the string). -/
def slit (s : String) : RegexS := ⟨false, rlits s.data⟩

/-- Grouped alternation piece `(a|b|...)`. -/
def sgalts (l : List RegexS) : RegexS := sgrp (salts l)

/-- Optional grouped alternation piece `(a|b|...)?`. -/
def soptg (l : List RegexS) : RegexS := ⟨false, .opt (.grp (salts l).2)⟩

/-- Optional literal character piece `c?`. -/
def soptc (c : Char) : RegexS := ⟨false, .opt (.lit c)⟩

/-- The piece `\d+`. -/
def splusDig : RegexS := ⟨false, .plus .digit⟩

/-- The piece `\d*`. -/
def sstarDig : RegexS := ⟨false, .star .digit⟩

/-- The piece `.+`. -/
def splusDot : RegexS := ⟨false, .plus .dot⟩

/-- The piece `.*`. -/
def sstarDot : RegexS := ⟨false, .star .dot⟩

/-- Build class items from a list of alphanumeric characters. -/
def mkClsItems : (l : List Char) → (∀ c ∈ l, c.isAlphanum = true) → List ClsItem
  | [], _ => []
  | c :: rest, h =>
    ClsItem.ch c (h c (List.mem_cons_self c rest)) ::
      mkClsItems rest (fun x hx => h x (List.mem_cons_of_mem c hx))

/-- Character class piece `[c₁c₂...]` over explicit characters. -/
def sclsChars (l : List Char) (h1 : ∀ c ∈ l, c.isAlphanum = true) (h2 : l ≠ []) : RegexS :=
  ⟨true, .cls (mkClsItems l h1) (by
    cases l with
    | nil => exact absurd rfl h2
    | cons c rest => exact List.cons_ne_nil _ _)⟩

/-- Character class piece `[a-b]` over a single range. -/
def sclsRange (a b : Char) (ha : a.isAlphanum = true) (hb : b.isAlphanum = true)
    (hle : a ≤ b) : RegexS :=
  ⟨true, .cls [ClsItem.range a b ha hb hle] (List.cons_ne_nil _ _)⟩

/-- Boxed counted repetition of a class piece. -/
def srep (a : RegexS) (h : a.1 = true) (m n : Nat) (h1 : m ≤ n) (h2 : n ≤ 1000) : RegexS :=
  ⟨false, .rep (h ▸ a.2) m n h1 h2⟩

/-- Plus piece `a+` of an atomic boxed term. -/
def splus (a : RegexS) (h : a.1 = true) : RegexS := ⟨false, .plus (h ▸ a.2)⟩

/-- Optional piece `a?` of an atomic boxed term. -/
def soptS (a : RegexS) (h : a.1 = true) : RegexS := ⟨false, .opt (h ▸ a.2)⟩

/-- Regex terms for the curated Tailwind catalogue, in catalogue order;
each prints to the corresponding `tailwindPatterns` regex string. -/
def curatedASTs : List RegexS :=
  [ rcat [⟨false, .caret⟩, sgalts [slit "m", slit "p"],
      soptg [slit "t", slit "r", slit "b", slit "l", slit "x", slit "y"], slit "-",
      sgalts [splusDig, slit "auto", slit "px"], ⟨false, .dollar⟩]
  , rcat [⟨false, .caret⟩,
      sgalts [slit "w", slit "h", slit "min-w", slit "min-h", slit "max-w", slit "max-h"],
      slit "-",
      sgalts [splusDig, slit "auto", slit "full", slit "screen", slit "min", slit "max",
        slit "fit"], ⟨false, .dollar⟩]
  , rcat [⟨false, .caret⟩, sgalts [slit "flex", slit "grow", slit "shrink", slit "basis"],
      soptc '-', sgalts [sstarDot], ⟨false, .dollar⟩]
  , rcat [⟨false, .caret⟩, sgalts [slit "grid", slit "col", slit "row", slit "gap"],
      soptc '-', sgalts [sstarDot], ⟨false, .dollar⟩]
  , rcat [⟨false, .caret⟩, slit "text-",
      sgalts [slit "xs", slit "sm", slit "base", slit "lg", slit "xl",
        rcat [sstarDig, slit "xl"], slit "left", slit "center", slit "right", slit "justify",
        rcat [splus (sclsRange 'a' 'z' (by decide) (by decide) (by decide)) rfl, slit "-",
          splusDig]], ⟨false, .dollar⟩]
  , rcat [⟨false, .caret⟩, slit "font-",
      sgalts [slit "sans", slit "serif", slit "mono", slit "thin", slit "light", slit "normal",
        slit "medium", slit "semibold", slit "bold", slit "extrabold", slit "black"],
      ⟨false, .dollar⟩]
  , rcat [⟨false, .caret⟩, slit "bg-",
      sgalts [slit "transparent", slit "current", slit "black", slit "white",
        rcat [splus (sclsRange 'a' 'z' (by decide) (by decide) (by decide)) rfl, slit "-",
          splusDig],
        rcat [slit "gradient-", splusDot]], ⟨false, .dollar⟩]
  , rcat [⟨false, .caret⟩, slit "border",
      soptg [rcat [slit "-", sclsChars ['t', 'r', 'b', 'l'] (by decide) (by decide)]],
      soptg [rcat [slit "-", splusDig]],
      soptg [rcat [slit "-", splus (sclsRange 'a' 'z' (by decide) (by decide) (by decide)) rfl,
        slit "-", splusDig]], ⟨false, .dollar⟩]
  , rcat [⟨false, .caret⟩, slit "rounded",
      soptg [rcat [slit "-",
        srep (sclsChars ['t', 'l', 'r', 'b'] (by decide) (by decide)) rfl 1 2 (by decide)
          (by decide)]],
      soptg [slit "-none", slit "-sm", slit "-md", slit "-lg", slit "-xl", slit "-2xl",
        slit "-3xl", slit "-full"], ⟨false, .dollar⟩]
  , rcat [⟨false, .caret⟩, slit "shadow",
      soptg [slit "-none", slit "-sm", slit "-md", slit "-lg", slit "-xl", slit "-2xl",
        slit "-inner"], ⟨false, .dollar⟩]
  , rcat [⟨false, .caret⟩, slit "opacity-", splusDig, ⟨false, .dollar⟩]
  , rcat [⟨false, .caret⟩, slit "z-", sgalts [splusDig, slit "auto"], ⟨false, .dollar⟩]
  , rcat [⟨false, .caret⟩, slit "transition",
      soptg [slit "-all", slit "-colors", slit "-opacity", slit "-shadow", slit "-transform",
        slit "-none"], ⟨false, .dollar⟩]
  , rcat [⟨false, .caret⟩, slit "duration-", splusDig, ⟨false, .dollar⟩]
  , rcat [⟨false, .caret⟩, slit "ease-",
      sgalts [slit "linear", slit "in", slit "out", slit "in-out"], ⟨false, .dollar⟩]
  , rcat [⟨false, .caret⟩, soptc '-', slit "translate-",
      sclsChars ['x', 'y'] (by decide) (by decide), slit "-",
      sgalts [splusDig, slit "full", slit "px"], ⟨false, .dollar⟩]
  , rcat [⟨false, .caret⟩, soptc '-', slit "rotate-", splusDig, ⟨false, .dollar⟩]
  , rcat [⟨false, .caret⟩, slit "scale-",
      soptS (sclsChars ['x', 'y'] (by decide) (by decide)) rfl, soptc '-', splusDig,
      ⟨false, .dollar⟩]
  , rcat [⟨false, .caret⟩, slit "animate-",
      sgalts [slit "none", slit "spin", slit "ping", slit "pulse", slit "bounce"],
      ⟨false, .dollar⟩]
  , rcat [⟨false, .caret⟩, slit "cursor-",
      sgalts [slit "auto", slit "default", slit "pointer", slit "wait", slit "text",
        slit "move", slit "not-allowed"], ⟨false, .dollar⟩]
  , rcat [⟨false, .caret⟩, slit "select-",
      sgalts [slit "none", slit "text", slit "all", slit "auto"], ⟨false, .dollar⟩]
  , rcat [⟨false, .caret⟩, slit "overflow",
      soptg [rcat [slit "-", sclsChars ['x', 'y'] (by decide) (by decide)]], slit "-",
      sgalts [slit "auto", slit "hidden", slit "visible", slit "scroll"], ⟨false, .dollar⟩]
  , rcat [⟨false, .caret⟩,
      sgalts [slit "static", slit "fixed", slit "absolute", slit "relative", slit "sticky"],
      ⟨false, .dollar⟩]
  , rcat [⟨false, .caret⟩,
      sgalts [slit "inset", slit "top", slit "right", slit "bottom", slit "left"], slit "-",
      sgalts [splusDig, slit "auto", slit "px", slit "full"], ⟨false, .dollar⟩]
  , rcat [⟨false, .caret⟩,
      sgalts [slit "block", slit "inline-block", slit "inline", slit "flex", slit "inline-flex",
        slit "grid", slit "inline-grid", slit "hidden"], ⟨false, .dollar⟩]
  , rcat [⟨false, .caret⟩, sgalts [slit "visible", slit "invisible"], ⟨false, .dollar⟩] ]

/-- Position of the first ASCII digit of a token: the characters before it,
the digit, and the characters after it; `none` when no digit occurs. -/
def splitFirstDigit : List Char → Option (List Char × Char × List Char)
  | [] => none
  | c :: rest =>
    if c.isDigit then some ([], c, rest)
    else
      match splitFirstDigit rest with
      | some (p, d, r) => some (c :: p, d, r)
      | none => none

/-- Modelled from the spec (§4.1 wording, for comparison with the code): the
longest run of alphabetic characters and hyphens immediately preceding the
first digit of the token, or the full token when the token has no digit. -/
def specStructuralPfx (cls : String) : String :=
  match splitFirstDigit cls.data with
  | none => cls
  | some (pre, _, _) => String.mk (pre.reverse.takeWhile isAlphaHyphen).reverse

/-- Drop a single trailing hyphen, unless that would leave the prefix
empty.  Describes what the lazy capture excludes before the first digit. -/
def dropTrailHyphen (pre : List Char) : List Char :=
  if pre.getLast? = some '-' ∧ 2 ≤ pre.length then pre.dropLast else pre

/-- The fields of a pattern that do not depend on map iteration order:
everything except `examples`. -/
def Pattern.strip (p : Pattern) : String × String × String × Nat :=
  (p.name, p.regex, p.description, p.count)

/-- A configuration with every pattern's `examples` field erased. -/
def configSkeleton (c : Config) :
    String × List (String × String × String × Nat) × List String × List String :=
  (c.version, c.patterns.map Pattern.strip, c.literalClasses, c.ignored)

/-! Theorems about the embedded engine. -/

theorem strEq_of_data {s t : String} (h : s.data = t.data) : s = t := by
  cases s
  cases t
  cases h
  rfl

theorem charToNat_inj {x y : Char} (h : x.toNat = y.toNat) : x = y := by
  apply Char.ext
  unfold Char.toNat at h
  exact UInt32.ext h

theorem charsLe_total (a b : List Char) : charsLe a b = true ∨ charsLe b a = true := by
  induction a generalizing b with
  | nil => exact Or.inl rfl
  | cons x as ih =>
    cases b with
    | nil => exact Or.inr rfl
    | cons y bs =>
      rcases Nat.lt_trichotomy x.toNat y.toNat with h | h | h
      · exact Or.inl (by simp [charsLe, h])
      · have h2 : ¬x.toNat < y.toNat := by omega
        have h3 : ¬y.toNat < x.toNat := by omega
        rcases ih bs with hl | hr
        · exact Or.inl (by simp [charsLe, h2, h3, hl])
        · exact Or.inr (by simp [charsLe, h2, h3, hr])
      · exact Or.inr (by simp [charsLe, h])

theorem charsLe_trans (a b c : List Char) (h1 : charsLe a b = true) (h2 : charsLe b c = true) :
    charsLe a c = true := by
  induction a generalizing b c with
  | nil => rfl
  | cons x as ih =>
    cases b with
    | nil => simp [charsLe] at h1
    | cons y bs =>
      cases c with
      | nil => simp [charsLe] at h2
      | cons z cs =>
        rcases Nat.lt_trichotomy x.toNat y.toNat with hxy | hxy | hxy
        · rcases Nat.lt_trichotomy y.toNat z.toNat with hyz | hyz | hyz
          · simp [charsLe, show x.toNat < z.toNat by omega]
          · simp [charsLe, show x.toNat < z.toNat by omega]
          · simp [charsLe, show ¬y.toNat < z.toNat by omega, hyz] at h2
        · rcases Nat.lt_trichotomy y.toNat z.toNat with hyz | hyz | hyz
          · simp [charsLe, show x.toNat < z.toNat by omega]
          · simp only [charsLe, show ¬x.toNat < y.toNat by omega,
              show ¬y.toNat < x.toNat by omega, if_neg, if_false] at h1
            simp only [charsLe, show ¬y.toNat < z.toNat by omega,
              show ¬z.toNat < y.toNat by omega, if_neg, if_false] at h2
            simp only [charsLe, show ¬x.toNat < z.toNat by omega,
              show ¬z.toNat < x.toNat by omega, if_neg, if_false]
            exact ih bs cs h1 h2
          · simp [charsLe, show ¬y.toNat < z.toNat by omega, hyz] at h2
        · simp [charsLe, show ¬x.toNat < y.toNat by omega, hxy] at h1

theorem charsLe_antisymm (a b : List Char) (h1 : charsLe a b = true)
    (h2 : charsLe b a = true) : a = b := by
  induction a generalizing b with
  | nil =>
    cases b with
    | nil => rfl
    | cons y bs => simp [charsLe] at h2
  | cons x as ih =>
    cases b with
    | nil => simp [charsLe] at h1
    | cons y bs =>
      rcases Nat.lt_trichotomy x.toNat y.toNat with hxy | hxy | hxy
      · simp [charsLe, show ¬y.toNat < x.toNat by omega, hxy] at h2
      · simp only [charsLe, show ¬x.toNat < y.toNat by omega,
          show ¬y.toNat < x.toNat by omega, if_neg, if_false] at h1 h2
        rw [charToNat_inj hxy, ih bs h1 h2]
      · simp [charsLe, show ¬x.toNat < y.toNat by omega, hxy] at h1

instance : IsTotal String lexLe := ⟨fun a b => charsLe_total a.data b.data⟩

instance : IsTrans String lexLe := ⟨fun a b c => charsLe_trans a.data b.data c.data⟩

instance : IsAntisymm String lexLe :=
  ⟨fun a b h1 h2 => strEq_of_data (charsLe_antisymm a.data b.data h1 h2)⟩

instance : IsTotal Pattern patLE := ⟨fun a b => charsLe_total a.name.data b.name.data⟩

instance : IsTrans Pattern patLE :=
  ⟨fun a b c => charsLe_trans a.name.data b.name.data c.name.data⟩

/--
Claim C1: for all ClassSets H (target) and C (reference), `Compare` returns
a result with orphans equal to H − C sorted lexicographically, unused equal
to C − H sorted lexicographically, matched equal to `|H ∩ C|`, and
consequently `|orphans| + matched = |H|`.
-/
theorem claim_direct_compare_set_algebra (H C : Finset String) :
    (ValidateDirectly H C).orphans = sortFins (H \ C)
  ∧ List.Sorted (· ≤ ·) (ValidateDirectly H C).orphans
  ∧ (∀ s, s ∈ (ValidateDirectly H C).orphans ↔ s ∈ H ∧ s ∉ C)
  ∧ (ValidateDirectly H C).unused = sortFins (C \ H)
  ∧ List.Sorted (· ≤ ·) (ValidateDirectly H C).unused
  ∧ (∀ s, s ∈ (ValidateDirectly H C).unused ↔ s ∈ C ∧ s ∉ H)
  ∧ (ValidateDirectly H C).matched = (H ∩ C).card
  ∧ (ValidateDirectly H C).orphans.length + (ValidateDirectly H C).matched = H.card := by
  refine ⟨rfl, Finset.sort_sorted _ _, ?_, rfl, Finset.sort_sorted _ _, ?_, rfl, ?_⟩
  · intro s
    simp [ValidateDirectly, sortFins, Finset.mem_sort, Finset.mem_sdiff]
  · intro s
    simp [ValidateDirectly, sortFins, Finset.mem_sort, Finset.mem_sdiff]
  · show (sortFins (H \ C)).length + (H ∩ C).card = H.card
    rw [sortFins, Finset.length_sort]
    exact Finset.card_sdiff_add_card_inter H C

/--
Claim C2 is false on the code: with an empty target set the `if
result.HTMLClasses > 0` guard is not taken, so `CoveragePercent` keeps its
zero value `0.0`, not the claimed `100.0` — in both the direct comparison
and the pattern classification.
-/
theorem claim_vacuous_coverage_counterexample :
    (ValidateDirectly ∅ {"a"}).htmlClasses = 0
  ∧ (ValidateDirectly ∅ {"a"}).coveragePercent = 0
  ∧ ¬((ValidateDirectly ∅ {"a"}).coveragePercent = 100)
  ∧ (ValidateAgainstPatterns (Validator.mk [] ∅ ∅) ∅).htmlClasses = 0
  ∧ (ValidateAgainstPatterns (Validator.mk [] ∅ ∅) ∅).coveragePercent = 0
  ∧ ¬((ValidateAgainstPatterns (Validator.mk [] ∅ ∅) ∅).coveragePercent = 100) := by
  refine ⟨rfl, ?_, ?_, rfl, ?_, ?_⟩ <;>
    simp [ValidateDirectly, ValidateAgainstPatterns]

/--
Claim C2 amended: for every classification call (both the pattern-based
classification and the direct comparison) whose target ClassSet is empty,
the returned result has `coverage_percent` equal to `0.0` (the Go zero
value), not `100.0`.
-/
theorem claim_vacuous_coverage_amended (v : Validator) (C : Finset String) :
    (ValidateAgainstPatterns v ∅).coveragePercent = 0
  ∧ (ValidateDirectly ∅ C).coveragePercent = 0 := by
  constructor <;> simp [ValidateAgainstPatterns, ValidateDirectly]

/--
Claim C4 is false on the code: `Train` on an empty reference still runs
`addTailwindPatterns`, so the returned configuration carries the 26 curated
patterns — it is not empty.
-/
theorem claim_empty_training_counterexample :
    (Train []).patterns.length = 26 ∧ ¬((Train []).patterns = []) := by
  constructor
  · decide
  · decide

/--
Claim C4 amended: `Train` on an empty reference yields a configuration with
no learned patterns and no literal classes, but whose patterns are exactly
the curated Tailwind catalogue sorted by name.
-/
theorem claim_empty_training_amended :
    (Train []).patterns = sortPats tailwindPatterns
  ∧ (Train []).patterns.length = tailwindPatterns.length
  ∧ (Train []).literalClasses = []
  ∧ (Train []).ignored = []
  ∧ (Train []).version = "1.0.0" := by
  refine ⟨rfl, ?_, rfl, rfl, rfl⟩
  decide

theorem anyPatternMatch_eq_true_iff (l : List (String → Bool)) (c : String) :
    anyPatternMatch l c = true ↔ ∃ re ∈ l, re c = true := by
  induction l with
  | nil => simp [anyPatternMatch]
  | cons re rest ih =>
    by_cases h : re c = true <;> simp [anyPatternMatch, h, ih]

theorem tokenMatched_iff (v : Validator) (c : String) :
    tokenMatched v c = true ↔
      (c ∈ v.ignoredSet ∨ c ∈ v.literalSet ∨ ∃ re ∈ v.compiledPatterns, re c = true) := by
  unfold tokenMatched
  by_cases h1 : c ∈ v.ignoredSet
  · simp [h1]
  · by_cases h2 : c ∈ v.literalSet
    · simp [h1, h2]
    · simp [h1, h2, anyPatternMatch_eq_true_iff]

/--
Claim C5: classification evaluates each token in the fixed precedence order
ignored set, literal set, then compiled patterns in storage order with the
first match winning; every token resolves to matched or orphan exactly once
(so `matched + |orphans| = total_target`), and a token in the ignored set
that also matches a compiled pattern contributes exactly 1 to `matched` and
never appears among the orphans.
-/
theorem claim_classify_precedence (v : Validator) (html : Finset String) :
    (ValidateAgainstPatterns v html).matched + (ValidateAgainstPatterns v html).orphanCount
      = (ValidateAgainstPatterns v html).htmlClasses
  ∧ (∀ c, c ∈ (ValidateAgainstPatterns v html).orphans ↔
      c ∈ html ∧ tokenMatched v c = false)
  ∧ (ValidateAgainstPatterns v html).matched
      = (html.filter (fun c => tokenMatched v c = true)).card
  ∧ (∀ c, tokenMatched v c = true ↔
      (c ∈ v.ignoredSet ∨ c ∈ v.literalSet ∨ ∃ re ∈ v.compiledPatterns, re c = true))
  ∧ (∀ c, c ∈ v.ignoredSet →
      tokenMatched v c = true ∧ c ∉ (ValidateAgainstPatterns v html).orphans) := by
  refine ⟨?_, ?_, rfl, tokenMatched_iff v, ?_⟩
  · exact Finset.filter_card_add_filter_neg_card_eq_card (fun c => tokenMatched v c = true)
  · intro c
    simp [ValidateAgainstPatterns, sortFins, Finset.mem_sort, Finset.mem_filter]
  · intro c hc
    have hm : tokenMatched v c = true := by
      simp [tokenMatched, hc]
    refine ⟨hm, ?_⟩
    simp [ValidateAgainstPatterns, sortFins, Finset.mem_sort, Finset.mem_filter, hm]

/--
Witness for C5 at a concrete validator and target: the token `ign` sits in
the ignored set and also matches the single compiled pattern, yet counts as
matched (once) and is not an orphan.
-/
theorem claim_classify_precedence_witness :
    tokenMatched (Validator.mk [fun s => s = "ign" || s = "p-1"] {"lit"} {"ign"}) "ign" = true
  ∧ "ign" ∉ (ValidateAgainstPatterns
      (Validator.mk [fun s => s = "ign" || s = "p-1"] {"lit"} {"ign"})
      {"ign", "p-1", "zzz"}).orphans :=
  (claim_classify_precedence (Validator.mk [fun s => s = "ign" || s = "p-1"] {"lit"} {"ign"})
    {"ign", "p-1", "zzz"}).2.2.2.2 "ign" (by decide)

theorem compileAll_spec (f : String → Option (String → Bool)) (ps : List Pattern) :
    ((∃ l, compileAll f ps = Except.ok l ∧ l.length = ps.length)
        ∧ (∀ p ∈ ps, (f p.regex).isSome = true))
  ∨ ((∃ e, compileAll f ps = Except.error e) ∧ (∃ p ∈ ps, f p.regex = none)) := by
  induction ps with
  | nil => exact Or.inl ⟨⟨[], rfl, rfl⟩, by simp⟩
  | cons p rest ih =>
    cases hc : f p.regex with
    | none =>
      refine Or.inr ⟨⟨p.name, ?_⟩, ⟨p, by simp, hc⟩⟩
      simp [compileAll, hc]
    | some re =>
      rcases ih with ⟨⟨l, hok, hlen⟩, hall⟩ | ⟨⟨e, herr⟩, ⟨q, hq, hqn⟩⟩
      · refine Or.inl ⟨⟨re :: l, ?_, by simp [hlen]⟩, ?_⟩
        · simp [compileAll, hc, hok]
        · intro q hq
          rcases List.mem_cons.mp hq with rfl | hq'
          · simp [hc]
          · exact hall q hq'
      · refine Or.inr ⟨⟨e, ?_⟩, ⟨q, List.mem_cons_of_mem _ hq, hqn⟩⟩
        simp [compileAll, hc, herr]

/--
Claim C6: `New` fails if and only if some stored pattern regex does not
compile; on failure no validator is produced (fail fast, no partial
result), and when every regex compiles construction succeeds, pre-compiling
every pattern and building the two membership sets.
-/
theorem claim_new_fails_iff_bad_regex (compile : String → Option (String → Bool))
    (config : Config) :
    ((∃ v, New compile config = Except.ok v) ↔
      ∀ p ∈ config.patterns, (compile p.regex).isSome = true)
  ∧ ((∃ e, New compile config = Except.error e) ↔
      ∃ p ∈ config.patterns, compile p.regex = none)
  ∧ (∀ v, New compile config = Except.ok v →
      v.compiledPatterns.length = config.patterns.length
      ∧ v.literalSet = config.literalClasses.toFinset
      ∧ v.ignoredSet = config.ignored.toFinset) := by
  rcases compileAll_spec compile config.patterns with
    ⟨⟨l, hok, hlen⟩, hall⟩ | ⟨⟨e, herr⟩, ⟨q, hq, hqn⟩⟩
  · refine ⟨⟨fun _ => hall,
      fun _ => ⟨Validator.mk l config.literalClasses.toFinset config.ignored.toFinset,
        by simp [New, hok]⟩⟩, ⟨?_, ?_⟩, ?_⟩
    · rintro ⟨e, he⟩
      rw [New, hok] at he
      exact absurd he (by simp)
    · rintro ⟨p, hp, hpn⟩
      have := hall p hp
      rw [hpn] at this
      exact absurd this (by simp)
    · intro v hv
      rw [New, hok] at hv
      cases hv
      exact ⟨hlen, rfl, rfl⟩
  · refine ⟨⟨?_, ?_⟩, ⟨fun _ => ⟨q, hq, hqn⟩, fun _ => ⟨e, by simp [New, herr]⟩⟩, ?_⟩
    · rintro ⟨v, hv⟩
      rw [New, herr] at hv
      exact absurd hv (by simp)
    · intro hall
      have := hall q hq
      rw [hqn] at this
      exact absurd this (by simp)
    · intro v hv
      rw [New, herr] at hv
      exact absurd hv (by simp)

theorem scanPfxN_sound (s : List Char) (n : Nat) (h : scanPfxN s = some n) :
    1 ≤ n ∧ n ≤ s.length ∧ (∀ c ∈ s.take n, isAlphaHyphen c = true)
    ∧ restOk (s.drop n) = true := by
  induction s generalizing n with
  | nil => simp [scanPfxN] at h
  | cons c rest ih =>
    simp only [scanPfxN] at h
    by_cases h1 : isAlphaHyphen c = true
    · rw [if_pos h1] at h
      by_cases h2 : restOk rest = true
      · rw [if_pos h2] at h
        cases h
        refine ⟨le_refl 1, by simp, ?_, h2⟩
        intro x hx
        simp only [List.take_succ_cons, List.take_zero, List.mem_singleton] at hx
        rw [hx]
        exact h1
      · rw [if_neg h2] at h
        cases hm : scanPfxN rest with
        | none => simp [hm] at h
        | some m =>
          simp only [hm] at h
          cases h
          obtain ⟨hm1, hm2, hm3, hm4⟩ := ih m hm
          refine ⟨by omega, by simpa using by omega, ?_, hm4⟩
          intro x hx
          simp only [List.take_succ_cons, List.mem_cons] at hx
          rcases hx with rfl | hx
          · exact h1
          · exact hm3 x hx
    · rw [if_neg h1] at h
      simp at h

theorem scanPfxN_none : ∀ s : List Char, scanPfxN s = none →
    ∀ n, 1 ≤ n → n ≤ s.length → (∀ c ∈ s.take n, isAlphaHyphen c = true) →
      restOk (s.drop n) = false := by
  intro s
  induction s with
  | nil =>
    intro _ n h1 h2 _
    simp at h2
    omega
  | cons c rest ih =>
    intro h n h1 h2 hall
    simp only [scanPfxN] at h
    by_cases hc : isAlphaHyphen c = true
    · rw [if_pos hc] at h
      by_cases hr : restOk rest = true
      · rw [if_pos hr] at h
        simp at h
      · rw [if_neg hr] at h
        cases hm : scanPfxN rest with
        | some m => simp [hm] at h
        | none =>
          cases n with
          | zero => omega
          | succ k =>
            cases k with
            | zero =>
              simpa using Bool.not_eq_true _ |>.mp hr
            | succ j =>
              have : restOk (rest.drop (j + 1)) = false := by
                refine ih hm (j + 1) (by omega) ?_ ?_
                · simp at h2
                  omega
                · intro x hx
                  exact hall x (by simp [List.take_succ_cons]; exact Or.inr hx)
              simpa using this
    · rw [if_neg hc] at h
      exact absurd (hall c (by
        cases n with
        | zero => omega
        | succ k => simp [List.take_succ_cons])) (by simp [hc])

theorem scanPfxN_min (s : List Char) (n : Nat) (h : scanPfxN s = some n) :
    ∀ m, 1 ≤ m → m < n → restOk (s.drop m) = false := by
  induction s generalizing n with
  | nil => simp [scanPfxN] at h
  | cons c rest ih =>
    intro m hm1 hmn
    simp only [scanPfxN] at h
    by_cases h1 : isAlphaHyphen c = true
    · rw [if_pos h1] at h
      by_cases h2 : restOk rest = true
      · rw [if_pos h2] at h
        cases h
        omega
      · rw [if_neg h2] at h
        cases hq : scanPfxN rest with
        | none => simp [hq] at h
        | some q =>
          simp only [hq] at h
          cases h
          cases m with
          | zero => omega
          | succ k =>
            cases k with
            | zero => simpa using Bool.not_eq_true _ |>.mp h2
            | succ j =>
              have := ih q hq (j + 1) (by omega) (by omega)
              simpa using this
    · rw [if_neg h1] at h
      simp at h

theorem groupOf_mem (classes : List String) (p c : String) :
    c ∈ groupOf classes p ↔ c ∈ classes ∧ extractPfx c = p := by
  simp [groupOf, List.mem_filter]

theorem suffix_empty_imp_eq (c p : String) (hp : extractPfx c = p) (hs : suffixOf p c = "") :
    c = p := by
  unfold extractPfx at hp
  cases hm : scanPfxN c.data with
  | none =>
    rw [hm] at hp
    exact hp
  | some n =>
    rw [hm] at hp
    obtain ⟨h1n, hlen, _, hrest⟩ := scanPfxN_sound c.data n hm
    have hpd : p.data = c.data.take n := by
      rw [← hp]
    have hplen : p.data.length = n := by
      rw [hpd, List.length_take]
      omega
    have htrim1 : trimPfxStr c p = String.mk (c.data.drop n) := by
      unfold trimPfxStr
      rw [hplen, if_pos hpd.symm]
    rw [suffixOf, htrim1] at hs
    unfold trimPfxStr at hs
    by_cases hr : (c.data.drop n).take ("-".data.length) = "-".data
    · rw [if_pos hr] at hs
      have hdrop : (c.data.drop n).drop 1 = [] := congrArg String.data hs
      have : c.data.drop n = ['-'] := by
        have := (c.data.drop n).take_append_drop 1
        rw [hdrop, List.append_nil] at this
        rw [← this]
        exact hr
      rw [this] at hrest
      simp [restOk, headIsDigit] at hrest
    · rw [if_neg hr] at hs
      have : c.data.drop n = [] := congrArg String.data hs
      apply strEq_of_data
      rw [hpd]
      conv_lhs => rw [← c.data.take_append_drop n]
      rw [this, List.append_nil]

theorem all_eq_length_le_one {l : List String} {a : String} (hnd : l.Nodup)
    (h : ∀ x ∈ l, x = a) : l.length ≤ 1 := by
  cases l with
  | nil => simp
  | cons x rest =>
    cases rest with
    | nil => simp
    | cons y rest2 =>
      have hx : x = a := h x (by simp)
      have hy : y = a := h y (by simp)
      rw [List.nodup_cons] at hnd
      exact absurd (by rw [hx, hy] ; simp : x ∈ y :: rest2) hnd.1

theorem mem_literals_of_small (classes : List String) (c : String) (hc : c ∈ classes)
    (hsmall : (groupOf classes (extractPfx c)).length < 3) :
    c ∈ (Train classes).literalClasses := by
  show c ∈ sortStr _
  rw [sortStr, List.mem_insertionSort]
  rw [List.mem_flatMap]
  refine ⟨extractPfx c, ?_, (groupOf_mem classes _ c).mpr ⟨hc, rfl⟩⟩
  rw [List.mem_filter]
  constructor
  · rw [pfxKeys, sortStr, List.mem_insertionSort, List.mem_dedup]
    exact List.mem_map_of_mem extractPfx hc
  · simpa using hsmall

theorem generatePattern_name (p : String) (g : List String) (pat : Pattern)
    (h : generatePattern p g = some pat) : pat.name = p := by
  unfold generatePattern at h
  by_cases hsfx : ((g.map (suffixOf p)).filter (fun s => s ≠ "")).dedup = ([] : List String)
  · rw [if_pos hsfx] at h
    exact absurd h (by simp)
  · rw [if_neg hsfx] at h
    simp only [] at h
    split_ifs at h <;> cases h <;> rfl

theorem generatePattern_some_of_big (classes : List String) (hnd : classes.Nodup)
    (p : String) (hbig : 3 ≤ (groupOf classes p).length) :
    ∃ pat, generatePattern p (groupOf classes p) = some pat := by
  have hsfx : ((groupOf classes p).map (suffixOf p)).filter (fun s => s ≠ "") ≠ [] := by
    intro hempty
    have hall : ∀ t ∈ groupOf classes p, t = p := by
      intro t ht
      have hsf : suffixOf p t = "" := by
        by_contra hne
        have : suffixOf p t ∈
            ((groupOf classes p).map (suffixOf p)).filter (fun s => s ≠ "") := by
          rw [List.mem_filter]
          exact ⟨List.mem_map_of_mem _ ht, by simpa using hne⟩
        rw [hempty] at this
        exact absurd this (List.not_mem_nil _)
      exact suffix_empty_imp_eq t p ((groupOf_mem classes p t).mp ht).2 hsf
    have : (groupOf classes p).length ≤ 1 :=
      all_eq_length_le_one (List.Nodup.filter _ hnd) hall
    omega
  unfold generatePattern
  rw [if_neg (by simpa using hsfx)]
  set sfx := (((groupOf classes p).map (suffixOf p)).filter (fun s => s ≠ "")).dedup with hsfxdef
  have hsfxne : sfx ≠ [] := by
    rw [hsfxdef]
    simpa [List.dedup_eq_nil] using hsfx
  by_cases hnum : sfx.any isNumericSfx = true
  · by_cases hword : sfx.any isWordSfx = true
    · rw [if_pos (by rw [hnum, hword]; rfl)]
      exact ⟨_, rfl⟩
    · rw [if_neg (by simp [hword]), if_pos hnum]
      exact ⟨_, rfl⟩
  · have hfilter : sfx.filter (fun s => !isNumericSfx s) = sfx := by
      apply List.filter_eq_self.mpr
      intro a ha
      simp only [List.any_eq_true] at hnum
      push_neg at hnum
      simpa using hnum a ha
    have hparts : (sfx.filter (fun s => !isNumericSfx s)).map
        (fun s => if isWordSfx s then s else quoteMeta s) ≠ [] := by
      rw [hfilter]
      intro hmap
      exact hsfxne (List.map_eq_nil_iff.mp hmap)
    rw [if_neg (by simp [hnum]), if_neg (by simpa using hnum), if_pos (by simpa using hparts)]
    exact ⟨_, rfl⟩

/--
Witness for C6: a configuration with one pattern constructs successfully
under a compile function that accepts every regex.
-/
theorem claim_new_fails_iff_bad_regex_witness :
    ∃ v, New (fun _ => some (fun _ => false))
      (Config.mk "1.0.0" [Pattern.mk "n" "r" "d" [] 0] ["lit"] ["ign"]) = Except.ok v :=
  (claim_new_fails_iff_bad_regex (fun _ => some (fun _ => false))
    (Config.mk "1.0.0" [Pattern.mk "n" "r" "d" [] 0] ["lit"] ["ign"])).1.mpr (by decide)

theorem specialMeta_not_alphaHyphen (ch : Char) (h : isSpecialMeta ch = true) :
    isAlphaHyphen ch = false := by
  simp only [isSpecialMeta, Bool.or_eq_true, decide_eq_true_eq, or_assoc] at h
  rcases h with h | h | h | h | h | h | h | h | h | h | h | h | h | h <;> subst h <;> decide

theorem specialMeta_not_alpha (ch : Char) (h : isSpecialMeta ch = true) :
    ch.isAlpha = false := by
  simp only [isSpecialMeta, Bool.or_eq_true, decide_eq_true_eq, or_assoc] at h
  rcases h with h | h | h | h | h | h | h | h | h | h | h | h | h | h <;> subst h <;> decide

theorem flatten_singletons (l : List Char) : (l.map (fun c => [c])).flatten = l := by
  induction l with
  | nil => rfl
  | cons c rest ih => simp [ih]

theorem quoteMeta_eq_self_of_alphaHyphen (p : String)
    (h : ∀ ch ∈ p.data, isAlphaHyphen ch = true) : quoteMeta p = p := by
  apply strEq_of_data
  show (p.data.map escChar).flatten = p.data
  have : p.data.map escChar = p.data.map (fun c => [c]) := by
    apply List.map_congr_left
    intro ch hch
    unfold escChar
    rw [if_neg]
    intro hs
    have hcontra := h ch hch
    rw [specialMeta_not_alphaHyphen ch hs] at hcontra
    exact Bool.false_ne_true hcontra
  rw [this, flatten_singletons]

theorem quoteMeta_eq_self_of_word (s : String) (h : isWordSfx s = true) : quoteMeta s = s := by
  apply strEq_of_data
  show (s.data.map escChar).flatten = s.data
  simp only [isWordSfx, Bool.and_eq_true, List.all_eq_true] at h
  have : s.data.map escChar = s.data.map (fun c => [c]) := by
    apply List.map_congr_left
    intro ch hch
    unfold escChar
    rw [if_neg]
    intro hs
    have hcontra := h.2 ch hch
    rw [specialMeta_not_alpha ch hs] at hcontra
    exact Bool.false_ne_true hcontra
  rw [this, flatten_singletons]

theorem digit_not_alpha (c : Char) (h : c.isDigit = true) : c.isAlpha = false := by
  simp only [Char.isDigit, Char.isAlpha, Char.isUpper, Char.isLower,
    Bool.and_eq_true, Bool.or_eq_true, decide_eq_true_eq] at h ⊢
  rcases h with ⟨h1, h2⟩
  have n2 : c.val.toNat ≤ 57 := h2
  rw [Bool.or_eq_false_iff]
  constructor <;> rw [Bool.and_eq_false_iff] <;> left <;>
    simp only [decide_eq_false_iff_not] <;> intro hc
  · have : (65 : Nat) ≤ c.val.toNat := hc
    omega
  · have : (97 : Nat) ≤ c.val.toNat := hc
    omega

theorem numeric_not_word (s : String) (hn : isNumericSfx s = true) : isWordSfx s = false := by
  simp only [isNumericSfx, Bool.and_eq_true, List.all_eq_true] at hn
  rcases hn with ⟨hne, hall⟩
  cases hd : s.data with
  | nil =>
    rw [hd] at hne
    simp at hne
  | cons c rest =>
    have hdig : c.isDigit = true := hall c (by rw [hd]; simp)
    simp only [isWordSfx]
    rw [hd]
    simp [digit_not_alpha c hdig]

theorem pfx_alphaHyphen_of_two (classes : List String) (hnd : classes.Nodup) (p : String)
    (h2 : 2 ≤ (groupOf classes p).length) : ∀ ch ∈ p.data, isAlphaHyphen ch = true := by
  obtain ⟨t, ht, htp⟩ : ∃ t ∈ groupOf classes p, t ≠ p := by
    rcases hg : groupOf classes p with _ | ⟨x, _ | ⟨y, rest⟩⟩
    · rw [hg] at h2
      simp at h2
    · rw [hg] at h2
      simp at h2
    · have hxy : x ≠ y := by
        have : (groupOf classes p).Nodup := hnd.filter _
        rw [hg, List.nodup_cons] at this
        intro hcontra
        exact this.1 (by rw [hcontra]; simp)
      by_cases hx : x = p
      · exact ⟨y, by simp, fun hy => hxy (hx.trans hy.symm)⟩
      · exact ⟨x, by simp, hx⟩
  have hpt := ((groupOf_mem classes p t).mp ht).2
  unfold extractPfx at hpt
  cases hm : scanPfxN t.data with
  | none =>
    rw [hm] at hpt
    exact absurd hpt htp
  | some n =>
    rw [hm] at hpt
    obtain ⟨_, _, hall, _⟩ := scanPfxN_sound t.data n hm
    intro ch hch
    rw [← hpt] at hch
    exact hall ch hch

theorem generatePattern_eq_of_numeric (pfx : String) (classes : List String)
    (hne : ¬((classes.map (suffixOf pfx)).filter (fun s => s ≠ "")).dedup = [])
    (hnum : (((classes.map (suffixOf pfx)).filter (fun s => s ≠ "")).dedup).any
      isNumericSfx = true)
    (hword : (((classes.map (suffixOf pfx)).filter (fun s => s ≠ "")).dedup).any
      isWordSfx = false) :
    generatePattern pfx classes = some (Pattern.mk pfx ("^" ++ quoteMeta pfx ++ "-?\\d+$")
      ("Matches " ++ pfx ++ "-* utility classes")
      (if classes.length > 5 then classes.take 5 else classes) classes.length) := by
  unfold generatePattern
  rw [if_neg hne, if_neg (by rw [hword, Bool.and_false]; exact Bool.false_ne_true),
    if_pos hnum]

theorem generatePattern_eq_of_no_numeric (pfx : String) (classes : List String)
    (hne : ¬((classes.map (suffixOf pfx)).filter (fun s => s ≠ "")).dedup = [])
    (hnum : (((classes.map (suffixOf pfx)).filter (fun s => s ≠ "")).dedup).any
      isNumericSfx = false) :
    generatePattern pfx classes = some (Pattern.mk pfx
      ("^" ++ quoteMeta pfx ++ "-?(" ++ joinBar (sortStr
        (((((classes.map (suffixOf pfx)).filter (fun s => s ≠ "")).dedup).filter
          (fun s => !isNumericSfx s)).map
            (fun s => if isWordSfx s then s else quoteMeta s))) ++ ")$")
      ("Matches " ++ pfx ++ "-* utility classes")
      (if classes.length > 5 then classes.take 5 else classes) classes.length) := by
  have hfilter : (((classes.map (suffixOf pfx)).filter (fun s => s ≠ "")).dedup).filter
      (fun s => !isNumericSfx s) = ((classes.map (suffixOf pfx)).filter
        (fun s => s ≠ "")).dedup := by
    apply List.filter_eq_self.mpr
    intro a ha
    rw [List.any_eq_false] at hnum
    simpa using hnum a ha
  have hparts : (((((classes.map (suffixOf pfx)).filter (fun s => s ≠ "")).dedup).filter
      (fun s => !isNumericSfx s)).map
        (fun s => if isWordSfx s then s else quoteMeta s)) ≠ [] := by
    rw [hfilter]
    intro hmap
    exact hne (List.map_eq_nil_iff.mp hmap)
  unfold generatePattern
  rw [if_neg hne, if_neg (by rw [hnum, Bool.false_and]; exact Bool.false_ne_true),
    if_neg (by rw [hnum]; exact Bool.false_ne_true), if_pos hparts]

theorem generatePattern_eq_of_mixed (pfx : String) (classes : List String)
    (hne : ¬((classes.map (suffixOf pfx)).filter (fun s => s ≠ "")).dedup = [])
    (hnum : (((classes.map (suffixOf pfx)).filter (fun s => s ≠ "")).dedup).any
      isNumericSfx = true)
    (hword : (((classes.map (suffixOf pfx)).filter (fun s => s ≠ "")).dedup).any
      isWordSfx = true) :
    generatePattern pfx classes = some (Pattern.mk pfx
      ("^" ++ quoteMeta pfx ++ "-?(\\d+|" ++ joinBar (sortStr
        (((((classes.map (suffixOf pfx)).filter (fun s => s ≠ "")).dedup).filter
          (fun s => !isNumericSfx s)).map
            (fun s => if isWordSfx s then s else quoteMeta s))) ++ ")$")
      ("Matches " ++ pfx ++ "-* utility classes")
      (if classes.length > 5 then classes.take 5 else classes) classes.length) := by
  unfold generatePattern
  rw [if_neg hne, if_pos (by rw [hnum, hword]; rfl)]

/--
Claim C7: for every prefix group of size ≥ 3 with at least one non-empty
suffix, the synthesized regex is exactly `^<prefix>-?\d+$` when the
distinct suffixes are all purely numeric; `^<prefix>-?(<alternation>)$`
when none is purely numeric, the alternation joining the purely-alphabetic
suffixes and the regex-quoted other suffixes sorted lexicographically; and
`^<prefix>-?(\d+|<alternation>)$` when both purely numeric and purely
alphabetic suffixes occur.  (The prefix of a group of size ≥ 2 consists of
letters and hyphens only, so `QuoteMeta` leaves it unchanged and the prefix
appears literally.)
-/
theorem claim_generate_pattern_regex_forms (classes : List String) (hnd : classes.Nodup)
    (p : String) (hbig : 3 ≤ (groupOf classes p).length)
    (hsfx : ((groupOf classes p).map (suffixOf p)).filter (fun s => s ≠ "") ≠ []) :
    let g := groupOf classes p
    let sfx := ((g.map (suffixOf p)).filter (fun s => s ≠ "")).dedup
    let parts := sortStr ((sfx.filter (fun s => !isNumericSfx s)).map
      (fun s => if isWordSfx s then s else quoteMeta s))
    ((∀ s ∈ sfx, isNumericSfx s = true) →
      ∃ pat, generatePattern p g = some pat ∧ pat.regex = "^" ++ p ++ "-?\\d+$")
  ∧ ((∀ s ∈ sfx, isNumericSfx s = false) →
      ∃ pat, generatePattern p g = some pat ∧
        pat.regex = "^" ++ p ++ "-?(" ++ joinBar parts ++ ")$")
  ∧ ((∃ s ∈ sfx, isNumericSfx s = true) → (∃ s ∈ sfx, isWordSfx s = true) →
      ∃ pat, generatePattern p g = some pat ∧
        pat.regex = "^" ++ p ++ "-?(\\d+|" ++ joinBar parts ++ ")$") := by
  intro g sfx parts
  have hqm : quoteMeta p = p :=
    quoteMeta_eq_self_of_alphaHyphen p (pfx_alphaHyphen_of_two classes hnd p (by omega))
  have hsfxne : sfx ≠ [] := by
    simpa [sfx, List.dedup_eq_nil] using hsfx
  refine ⟨?_, ?_, ?_⟩
  · intro hallnum
    have hnum : sfx.any isNumericSfx = true := by
      rcases List.exists_mem_of_ne_nil sfx hsfxne with ⟨s, hs⟩
      exact List.any_eq_true.mpr ⟨s, hs, hallnum s hs⟩
    have hword : sfx.any isWordSfx = false := by
      rw [List.any_eq_false]
      intro s hs
      simp [numeric_not_word s (hallnum s hs)]
    refine ⟨_, generatePattern_eq_of_numeric p g hsfxne hnum hword, ?_⟩
    show "^" ++ quoteMeta p ++ "-?\\d+$" = "^" ++ p ++ "-?\\d+$"
    rw [hqm]
  · intro hnonum
    have hnum : sfx.any isNumericSfx = false := by
      rw [List.any_eq_false]
      intro s hs
      simp [hnonum s hs]
    refine ⟨_, generatePattern_eq_of_no_numeric p g hsfxne hnum, ?_⟩
    show "^" ++ quoteMeta p ++ "-?(" ++ joinBar parts ++ ")$"
        = "^" ++ p ++ "-?(" ++ joinBar parts ++ ")$"
    rw [hqm]
  · intro hexnum hexword
    have hnum : sfx.any isNumericSfx = true := by
      rcases hexnum with ⟨s, hs, hn⟩
      exact List.any_eq_true.mpr ⟨s, hs, hn⟩
    have hword : sfx.any isWordSfx = true := by
      rcases hexword with ⟨s, hs, hw⟩
      exact List.any_eq_true.mpr ⟨s, hs, hw⟩
    refine ⟨_, generatePattern_eq_of_mixed p g hsfxne hnum hword, ?_⟩
    show "^" ++ quoteMeta p ++ "-?(\\d+|" ++ joinBar parts ++ ")$"
        = "^" ++ p ++ "-?(\\d+|" ++ joinBar parts ++ ")$"
    rw [hqm]

/--
Witness for C7: the group of prefix `a` in `a-1, a-2, a-3` has three members
with purely numeric suffixes and synthesizes exactly `^a-?\d+$`.
-/
theorem claim_generate_pattern_regex_forms_witness :
    ∃ pat, generatePattern "a" (groupOf ["a-1", "a-2", "a-3"] "a") = some pat
      ∧ pat.regex = "^" ++ "a" ++ "-?\\d+$" :=
  (claim_generate_pattern_regex_forms ["a-1", "a-2", "a-3"] (by decide) "a" (by decide)
    (by decide)).1 (by decide)

/--
Claim C3: every reference token in a prefix group of size < 3, and every
token of a degenerate prefix group (each token equals its own structural
prefix), appears in the literal classes of the trained configuration; and
no reference token is dropped — each one is either retained literally or
covered by a synthesized pattern named after its group's prefix.  (A
degenerate group necessarily has at most one member, so it always falls
under the size-< 3 literal retention path, and the `generatePattern = nil`
branch of `Train` is unreachable for groups of size ≥ 3.)
-/
theorem claim_train_retains_small_and_degenerate (classes : List String)
    (hnd : classes.Nodup) (c : String) (hc : c ∈ classes) :
    ((groupOf classes (extractPfx c)).length < 3 → c ∈ (Train classes).literalClasses)
  ∧ ((∀ t ∈ groupOf classes (extractPfx c), extractPfx t = t) →
      c ∈ (Train classes).literalClasses)
  ∧ (c ∈ (Train classes).literalClasses ∨
      ∃ pat ∈ (Train classes).patterns, pat.name = extractPfx c) := by
  refine ⟨fun h => mem_literals_of_small classes c hc h, ?_, ?_⟩
  · intro hdeg
    apply mem_literals_of_small classes c hc
    have hall : ∀ t ∈ groupOf classes (extractPfx c), t = extractPfx c := by
      intro t ht
      have h1 := (groupOf_mem classes _ t).mp ht
      exact (hdeg t ht).symm.trans h1.2
    have hndg : (groupOf classes (extractPfx c)).Nodup := hnd.filter _
    have := all_eq_length_le_one hndg hall
    omega
  · by_cases hsmall : (groupOf classes (extractPfx c)).length < 3
    · exact Or.inl (mem_literals_of_small classes c hc hsmall)
    · right
      obtain ⟨pat, hpat⟩ := generatePattern_some_of_big classes hnd (extractPfx c) (by omega)
      refine ⟨pat, ?_, generatePattern_name _ _ _ hpat⟩
      show pat ∈ sortPats _
      rw [sortPats, List.mem_insertionSort, List.mem_append]
      left
      rw [List.mem_filterMap]
      refine ⟨extractPfx c, ?_, ?_⟩
      · rw [pfxKeys, sortStr, List.mem_insertionSort, List.mem_dedup]
        exact List.mem_map_of_mem extractPfx hc
      · rw [if_pos (by omega)]
        exact hpat

/--
Witness for C3: in the training set `btn, card` the token `btn` forms a
prefix group of size 1 (< 3) and is retained in the literal classes.
-/
theorem claim_train_retains_small_and_degenerate_witness :
    "btn" ∈ (Train ["btn", "card"]).literalClasses :=
  (claim_train_retains_small_and_degenerate ["btn", "card"] (by decide) "btn" (by decide)).1
    (by decide)

theorem digit_not_alphaHyphen (d : Char) (hd : d.isDigit = true) :
    isAlphaHyphen d = false := by
  unfold isAlphaHyphen
  rw [digit_not_alpha d hd, Bool.false_or, decide_eq_false_iff_not]
  intro h
  subst h
  exact absurd hd (by decide)

theorem restOk_nil_of_nodigit (r : List Char) (h1 : restOk r = true)
    (h2 : ∀ ch ∈ r, ch.isDigit = false) : r = [] := by
  cases r with
  | nil => rfl
  | cons c r2 =>
    exfalso
    have hc : c.isDigit = false := h2 c (by simp)
    simp only [restOk, hc, Bool.false_or, Bool.and_eq_true, decide_eq_true_eq] at h1
    cases r2 with
    | nil => simp [headIsDigit] at h1
    | cons y t =>
      have hy : y.isDigit = false := h2 y (by simp)
      simp [headIsDigit, hy] at h1

theorem extractPfx_eq_self_of_no_digit (cls : String)
    (h : ∀ ch ∈ cls.data, ch.isDigit = false) : extractPfx cls = cls := by
  unfold extractPfx
  cases hm : scanPfxN cls.data with
  | none => rfl
  | some n =>
    obtain ⟨_, _, _, hrest⟩ := scanPfxN_sound cls.data n hm
    have hdrop : cls.data.drop n = [] :=
      restOk_nil_of_nodigit _ hrest (fun ch hch => h ch (List.mem_of_mem_drop hch))
    have hlen : cls.data.length ≤ n := List.drop_eq_nil_iff.mp hdrop
    show String.mk (cls.data.take n) = cls
    rw [List.take_of_length_le hlen]

theorem headIsDigit_false_of_nodigit (w : List Char) (b : Char) (t : List Char)
    (hw : ∀ ch ∈ w, ch.isDigit = false) (hb : b.isDigit = false) :
    headIsDigit (w ++ b :: t) = false := by
  cases w with
  | nil => simpa [headIsDigit] using hb
  | cons x w2 => simpa [headIsDigit] using hw x (by simp)

theorem extractPfx_eq_self_of_blocker (cls : String) (pre : List Char) (d : Char)
    (rest : List Char) (hsplit : cls.data = pre ++ d :: rest) (hd : d.isDigit = true)
    (hND : ∀ ch ∈ pre, ch.isDigit = false)
    (hblock : ∃ ch ∈ pre, isAlphaHyphen ch = false) : extractPfx cls = cls := by
  obtain ⟨b, hbmem, hbAH⟩ := hblock
  obtain ⟨u, v, huv⟩ := List.append_of_mem hbmem
  have hbND : b.isDigit = false := hND b hbmem
  have huND : ∀ ch ∈ u, ch.isDigit = false := fun ch hch =>
    hND ch (by rw [huv]; exact List.mem_append_left _ hch)
  have hbnh : b ≠ '-' := by
    intro hcontra
    rw [hcontra] at hbAH
    exact absurd hbAH (by decide)
  unfold extractPfx
  cases hm : scanPfxN cls.data with
  | none => rfl
  | some n =>
    exfalso
    obtain ⟨h1n, hlen, hAHn, hrest⟩ := scanPfxN_sound cls.data n hm
    rcases Nat.lt_or_ge u.length n with hun | hun
    · have hbtake : b ∈ cls.data.take n := by
        rw [hsplit, huv, List.append_assoc, List.take_append_eq_append_take]
        apply List.mem_append_right
        have : 0 < n - u.length := by omega
        rcases hn2 : n - u.length with _ | k
        · omega
        · simp [List.take_succ_cons]
      exact absurd (hAHn b hbtake) (by simp [hbAH])
    · have hdropeq : cls.data.drop n = u.drop n ++ (b :: v) ++ d :: rest := by
        rw [hsplit, huv, List.drop_append_eq_append_drop,
          List.drop_append_eq_append_drop]
        have h0 : n - u.length = 0 := by omega
        have h00 : n - (u ++ b :: v).length = 0 := by
          simp only [List.length_append, List.length_cons]
          omega
        rw [h0, h00]
        simp
      rw [hdropeq] at hrest
      have hshape : u.drop n ++ (b :: v) ++ d :: rest = u.drop n ++ b :: (v ++ d :: rest) := by
        simp
      rw [hshape] at hrest
      cases hw : u.drop n with
      | nil =>
        rw [hw, List.nil_append] at hrest
        simp only [restOk, hbND, Bool.false_or, Bool.and_eq_true, decide_eq_true_eq] at hrest
        exact hbnh hrest.1
      | cons x w2 =>
        have hxND : x.isDigit = false := by
          apply huND
          have : x ∈ u.drop n := by rw [hw]; simp
          exact List.mem_of_mem_drop this
        rw [hw] at hrest
        simp only [List.cons_append, restOk, hxND, Bool.false_or, Bool.and_eq_true,
          decide_eq_true_eq] at hrest
        have : headIsDigit (w2 ++ b :: (v ++ d :: rest)) = false := by
          apply headIsDigit_false_of_nodigit
          · intro ch hch
            apply huND
            have : ch ∈ u.drop n := by rw [hw]; simp [hch]
            exact List.mem_of_mem_drop this
          · exact hbND
        rw [this] at hrest
        exact Bool.false_ne_true hrest.2

theorem extractPfx_eq_self_of_digit_head (cls : String) (d : Char) (rest : List Char)
    (hsplit : cls.data = d :: rest) (hd : d.isDigit = true) : extractPfx cls = cls := by
  unfold extractPfx
  rw [hsplit]
  simp [scanPfxN, digit_not_alphaHyphen d hd]

theorem dropTrailHyphen_cons (c : Char) (pre : List Char) (hne : pre ≠ [])
    (hns : pre ≠ ['-']) :
    (dropTrailHyphen (c :: pre)).length = (dropTrailHyphen pre).length + 1 := by
  cases pre with
  | nil => exact absurd rfl hne
  | cons x pre2 =>
    unfold dropTrailHyphen
    rw [List.getLast?_cons_cons]
    by_cases hl : (x :: pre2).getLast? = some '-'
    · have hlen2 : 2 ≤ (x :: pre2).length := by
        cases pre2 with
        | nil =>
          exfalso
          apply hns
          simp at hl
          rw [hl]
        | cons y t => simp
      rw [if_pos ⟨hl, by simp⟩, if_pos ⟨hl, hlen2⟩]
      simp only [List.length_dropLast, List.length_cons]
      omega
    · rw [if_neg (by intro hcontra; exact hl hcontra.1),
        if_neg (by intro hcontra; exact hl hcontra.1)]
      simp

theorem scanPfx_of_pre (pre : List Char) (d : Char) (rest : List Char) (hne : pre ≠ [])
    (hAH : ∀ ch ∈ pre, isAlphaHyphen ch = true) (hND : ∀ ch ∈ pre, ch.isDigit = false)
    (hd : d.isDigit = true) :
    scanPfxN (pre ++ d :: rest) = some (dropTrailHyphen pre).length := by
  induction pre with
  | nil => exact absurd rfl hne
  | cons c pre2 ih =>
    have hc : isAlphaHyphen c = true := hAH c (by simp)
    cases hp2 : pre2 with
    | nil =>
      show scanPfxN (c :: d :: rest) = some (dropTrailHyphen [c]).length
      have hdt : dropTrailHyphen [c] = [c] := by
        unfold dropTrailHyphen
        rw [if_neg]
        intro hcontra
        have h2 := hcontra.2
        simp at h2
      have hro : restOk (d :: rest) = true := by
        simp [restOk, hd]
      simp only [scanPfxN, hc, hro, if_true, hdt, List.length_cons, List.length_nil]
    | cons x pre3 =>
      rw [← hp2]
      by_cases hph : pre2 = ['-']
      · subst hph
        show scanPfxN (c :: '-' :: d :: rest) = some (dropTrailHyphen (c :: ['-'])).length
        have hro : restOk ('-' :: d :: rest) = true := by
          simp [restOk, headIsDigit, hd]
        simp only [scanPfxN, hc, hro, if_true]
        rfl
      · have hx : x.isDigit = false := hND x (by rw [hp2]; simp)
        have hro : restOk (pre2 ++ d :: rest) = false := by
          rw [hp2]
          cases pre3 with
          | nil =>
            have hxh : x ≠ '-' := by
              intro hcontra
              apply hph
              rw [hp2, hcontra]
            simp [restOk, headIsDigit, hx, hxh]
          | cons y t =>
            have hy : y.isDigit = false := hND y (by rw [hp2]; simp)
            simp [restOk, headIsDigit, hx, hy]
        have hih : scanPfxN (pre2 ++ d :: rest) = some (dropTrailHyphen pre2).length := by
          apply ih (by rw [hp2]; simp)
          · intro ch hch
            exact hAH ch (by simp [hch])
          · intro ch hch
            exact hND ch (by simp [hch])
        show scanPfxN (c :: (pre2 ++ d :: rest)) = some (dropTrailHyphen (c :: pre2)).length
        simp only [scanPfxN, hc, hro, hih, if_true, Bool.false_eq_true, if_false]
        rw [dropTrailHyphen_cons c pre2 (by rw [hp2]; simp) hph]

theorem dropTrailHyphen_is_take (pre : List Char) :
    pre.take (dropTrailHyphen pre).length = dropTrailHyphen pre := by
  unfold dropTrailHyphen
  split_ifs with h
  · rw [List.dropLast_eq_take]
    have hlt : (pre.take (pre.length - 1)).length = pre.length - 1 := by
      rw [List.length_take]
      omega
    rw [hlt]
  · exact List.take_length pre

theorem dropTrailHyphen_length_le (pre : List Char) :
    (dropTrailHyphen pre).length ≤ pre.length := by
  unfold dropTrailHyphen
  split_ifs with h
  · simp
  · exact le_refl _

/--
Claim C9 is false on the code: for `text-gray-100` the characters preceding
the first digit are `text-gray-` (all alphabetic or hyphens), so the
claimed "longest run of alphabetic characters and hyphens preceding the
first digit" is `text-gray-`; the lazy capture of
`^([a-zA-Z-]+?)(?:-?\d|$)` instead yields `text-gray`, excluding the
hyphen immediately before the digit.
-/
theorem claim_structural_prefix_counterexample :
    extractPfx "text-gray-100" = "text-gray"
  ∧ specStructuralPfx "text-gray-100" = "text-gray-"
  ∧ ¬(extractPfx "text-gray-100" = specStructuralPfx "text-gray-100") := by
  refine ⟨by decide, by decide, by decide⟩

/--
Claim C9 amended: the structural prefix is the run of characters preceding
the first digit minus a single immediately-preceding hyphen (kept when it
is the whole run), provided that run is non-empty and consists only of
letters and hyphens; the full token is used when the token has no digit,
when some character before the first digit is neither a letter nor a
hyphen, or when the token starts with a digit.  Grouping maps each token to
exactly one group, keyed by that prefix.
-/
theorem claim_structural_prefix_amended (cls : String) :
    ((∀ ch ∈ cls.data, ch.isDigit = false) → extractPfx cls = cls)
  ∧ (∀ pre d rest, cls.data = pre ++ d :: rest → d.isDigit = true →
      (∀ ch ∈ pre, ch.isDigit = false) →
      (((∀ ch ∈ pre, isAlphaHyphen ch = true) ∧ pre ≠ []) →
        extractPfx cls = String.mk (dropTrailHyphen pre))
      ∧ ((∃ ch ∈ pre, isAlphaHyphen ch = false) → extractPfx cls = cls)
      ∧ (pre = [] → extractPfx cls = cls))
  ∧ (∀ (classes : List String) (P t : String),
      t ∈ groupOf classes P ↔ (t ∈ classes ∧ extractPfx t = P)) := by
  refine ⟨extractPfx_eq_self_of_no_digit cls, ?_, fun classes P t => groupOf_mem classes P t⟩
  intro pre d rest hsplit hd hND
  refine ⟨?_, extractPfx_eq_self_of_blocker cls pre d rest hsplit hd hND, ?_⟩
  · rintro ⟨hAH, hne⟩
    unfold extractPfx
    rw [hsplit, scanPfx_of_pre pre d rest hne hAH hND hd]
    show String.mk ((pre ++ d :: rest).take (dropTrailHyphen pre).length) = _
    rw [List.take_append_of_le_length (dropTrailHyphen_length_le pre),
      dropTrailHyphen_is_take]
  · intro hpre
    subst hpre
    exact extractPfx_eq_self_of_digit_head cls d rest (by simpa using hsplit) hd

/--
Witness for C9 amended, at the counterexample token: the prefix of
`text-gray-100` is the pre-digit run `text-gray-` with its trailing hyphen
removed.
-/
theorem claim_structural_prefix_amended_witness :
    extractPfx "text-gray-100"
      = String.mk (dropTrailHyphen ['t', 'e', 'x', 't', '-', 'g', 'r', 'a', 'y', '-']) :=
  ((claim_structural_prefix_amended "text-gray-100").2.1
    ['t', 'e', 'x', 't', '-', 'g', 'r', 'a', 'y', '-'] '1' ['0', '0']
    (by decide) (by decide) (by decide)).1 ⟨by decide, by decide⟩

theorem sortStr_eq_of_perm {l1 l2 : List String} (h : l1.Perm l2) : sortStr l1 = sortStr l2 := by
  exact List.eq_of_perm_of_sorted
    (((List.perm_insertionSort lexLe l1).trans h).trans
      (List.perm_insertionSort lexLe l2).symm)
    (List.sorted_insertionSort lexLe l1) (List.sorted_insertionSort lexLe l2)

theorem any_congr_of_perm {α : Type} {l1 l2 : List α} (f : α → Bool) (h : l1.Perm l2) :
    l1.any f = l2.any f := by
  rw [Bool.eq_iff_iff]
  simp only [List.any_eq_true]
  constructor <;> rintro ⟨x, hx, hfx⟩
  · exact ⟨x, h.mem_iff.mp hx, hfx⟩
  · exact ⟨x, h.mem_iff.mpr hx, hfx⟩

theorem generatePattern_strip_perm (pfx : String) (g1 g2 : List String) (h : g1.Perm g2) :
    Option.map Pattern.strip (generatePattern pfx g1)
      = Option.map Pattern.strip (generatePattern pfx g2) := by
  have hsfx : (((g1.map (suffixOf pfx)).filter (fun s => s ≠ "")).dedup).Perm
      (((g2.map (suffixOf pfx)).filter (fun s => s ≠ "")).dedup) :=
    ((h.map _).filter _).dedup
  have hlen : g1.length = g2.length := h.length_eq
  unfold generatePattern
  by_cases hempty : ((g1.map (suffixOf pfx)).filter (fun s => s ≠ "")).dedup = []
  · have hempty2 : ((g2.map (suffixOf pfx)).filter (fun s => s ≠ "")).dedup = [] := by
      have := hempty ▸ hsfx
      exact this.symm.eq_nil
    rw [if_pos hempty, if_pos hempty2]
  · have hempty2 : ¬((g2.map (suffixOf pfx)).filter (fun s => s ≠ "")).dedup = [] := by
      intro hcontra
      exact hempty (hsfx.trans (hcontra ▸ List.Perm.refl _)).eq_nil
    rw [if_neg hempty, if_neg hempty2]
    have hnum := any_congr_of_perm isNumericSfx hsfx
    have hword := any_congr_of_perm isWordSfx hsfx
    have hparts : sortStr ((((g1.map (suffixOf pfx)).filter (fun s => s ≠ "")).dedup.filter
        (fun s => !isNumericSfx s)).map (fun s => if isWordSfx s then s else quoteMeta s))
      = sortStr ((((g2.map (suffixOf pfx)).filter (fun s => s ≠ "")).dedup.filter
        (fun s => !isNumericSfx s)).map (fun s => if isWordSfx s then s else quoteMeta s)) :=
      sortStr_eq_of_perm ((hsfx.filter _).map _)
    have hpartsPerm : ((((g1.map (suffixOf pfx)).filter (fun s => s ≠ "")).dedup.filter
        (fun s => !isNumericSfx s)).map
          (fun s => if isWordSfx s then s else quoteMeta s)).Perm
        ((((g2.map (suffixOf pfx)).filter (fun s => s ≠ "")).dedup.filter
        (fun s => !isNumericSfx s)).map
          (fun s => if isWordSfx s then s else quoteMeta s)) :=
      (hsfx.filter _).map _
    have hpne : (((((g1.map (suffixOf pfx)).filter (fun s => s ≠ "")).dedup.filter
        (fun s => !isNumericSfx s)).map
          (fun s => if isWordSfx s then s else quoteMeta s)) = [])
        ↔ (((((g2.map (suffixOf pfx)).filter (fun s => s ≠ "")).dedup.filter
        (fun s => !isNumericSfx s)).map
          (fun s => if isWordSfx s then s else quoteMeta s)) = []) := by
      constructor <;> intro hx
      · exact (hx ▸ hpartsPerm).symm.eq_nil
      · exact (hx ▸ hpartsPerm.symm).symm.eq_nil
    have hcond : (((((g1.map (suffixOf pfx)).filter (fun s => s ≠ "")).dedup.filter
        (fun s => !isNumericSfx s)).map
          (fun s => if isWordSfx s then s else quoteMeta s)) ≠ [])
        = (((((g2.map (suffixOf pfx)).filter (fun s => s ≠ "")).dedup.filter
        (fun s => !isNumericSfx s)).map
          (fun s => if isWordSfx s then s else quoteMeta s)) ≠ []) :=
      propext (not_congr hpne)
    rw [hnum, hword]
    simp only [hparts, hlen, hcond]
    split_ifs <;> simp [Pattern.strip]

theorem map_filterMap_congr {α β γ : Type} (f1 f2 : α → Option β) (g : β → γ)
    (keys : List α) (h : ∀ p ∈ keys, Option.map g (f1 p) = Option.map g (f2 p)) :
    (keys.filterMap f1).map g = (keys.filterMap f2).map g := by
  induction keys with
  | nil => rfl
  | cons k rest ih =>
    have hk := h k (by simp)
    have hrest := ih (fun p hp => h p (by simp [hp]))
    simp only [List.filterMap_cons]
    cases hf1 : f1 k with
    | none =>
      cases hf2 : f2 k with
      | none => exact hrest
      | some b2 =>
        rw [hf1, hf2] at hk
        simp at hk
    | some b1 =>
      cases hf2 : f2 k with
      | none =>
        rw [hf1, hf2] at hk
        simp at hk
      | some b2 =>
        rw [hf1, hf2] at hk
        simp only [Option.map_some'] at hk
        injection hk with hk
        simp [hk, hrest]

theorem flatMap_perm_congr (keys : List String) (g1 g2 : String → List String)
    (h : ∀ p ∈ keys, (g1 p).Perm (g2 p)) : (keys.flatMap g1).Perm (keys.flatMap g2) := by
  induction keys with
  | nil => exact List.Perm.refl _
  | cons k rest ih =>
    simp only [List.flatMap_cons]
    exact (h k (by simp)).append (ih (fun p hp => h p (by simp [hp])))

theorem map_strip_sortPats_congr (L1 L2 : List Pattern)
    (h : L1.map Pattern.strip = L2.map Pattern.strip) :
    (sortPats L1).map Pattern.strip = (sortPats L2).map Pattern.strip := by
  haveI : DecidableRel (fun (a b : String × String × String × Nat) => lexLe a.1 b.1) :=
    fun a b => inferInstanceAs (Decidable (lexLe a.1 b.1))
  rw [sortPats, sortPats,
    List.map_insertionSort patLE
      (fun (a b : String × String × String × Nat) => lexLe a.1 b.1) Pattern.strip L1
      (fun _ _ _ _ => Iff.rfl),
    List.map_insertionSort patLE
      (fun (a b : String × String × String × Nat) => lexLe a.1 b.1) Pattern.strip L2
      (fun _ _ _ _ => Iff.rfl), h]

/--
Claim C8 is false on the code: the `examples` field is the first five group
members in map iteration order, which Go does not fix, so two trainings on
the same reference ClassSet need not be byte-identical.  Two iteration
orders of the set `a-1, a-2, a-3` yield configurations differing in the
learned pattern's examples.
-/
theorem claim_train_determinism_counterexample :
    List.Perm ["a-1", "a-2", "a-3"] ["a-2", "a-1", "a-3"]
  ∧ ¬(Train ["a-1", "a-2", "a-3"] = Train ["a-2", "a-1", "a-3"]) :=
  ⟨by decide, by decide⟩

/--
Claim C8 amended: training is deterministic up to the `examples` field —
two trainings on the same reference ClassSet (any two iteration orders of
it) agree on the version, the literal classes, the ignored list, and on
every pattern's name, regex, description and count, in the same
sorted-by-name order; only `examples` depends on the iteration order.
-/
theorem claim_train_determinism_amended (l1 l2 : List String) (hperm : l1.Perm l2) :
    configSkeleton (Train l1) = configSkeleton (Train l2) := by
  have hkeys : pfxKeys l1 = pfxKeys l2 := sortStr_eq_of_perm ((hperm.map _).dedup)
  have hgroups : ∀ p, (groupOf l1 p).Perm (groupOf l2 p) := fun p => hperm.filter _
  have hglen : ∀ p, (groupOf l1 p).length = (groupOf l2 p).length :=
    fun p => (hgroups p).length_eq
  have hlearned : ((pfxKeys l1).filterMap (fun p =>
        if 3 ≤ (groupOf l1 p).length then generatePattern p (groupOf l1 p)
        else none)).map Pattern.strip
      = ((pfxKeys l2).filterMap (fun p =>
        if 3 ≤ (groupOf l2 p).length then generatePattern p (groupOf l2 p)
        else none)).map Pattern.strip := by
    rw [← hkeys]
    apply map_filterMap_congr
    intro p _
    by_cases hbig : 3 ≤ (groupOf l1 p).length
    · rw [if_pos hbig, if_pos (by rw [← hglen p]; exact hbig)]
      exact generatePattern_strip_perm p _ _ (hgroups p)
    · rw [if_neg hbig, if_neg (by rw [← hglen p]; exact hbig)]
  have hnames : ((pfxKeys l1).filterMap (fun p =>
        if 3 ≤ (groupOf l1 p).length then generatePattern p (groupOf l1 p)
        else none)).map Pattern.name
      = ((pfxKeys l2).filterMap (fun p =>
        if 3 ≤ (groupOf l2 p).length then generatePattern p (groupOf l2 p)
        else none)).map Pattern.name := by
    have h2 := congrArg (List.map (fun t : String × String × String × Nat => t.1)) hlearned
    simpa [List.map_map, Function.comp_def, Pattern.strip] using h2
  have hpat : (Train l1).patterns.map Pattern.strip
      = (Train l2).patterns.map Pattern.strip := by
    show (sortPats (((pfxKeys l1).filterMap (fun p =>
        if 3 ≤ (groupOf l1 p).length then generatePattern p (groupOf l1 p) else none))
      ++ tailwindPatterns.filter (fun q =>
        !(((pfxKeys l1).filterMap (fun p =>
          if 3 ≤ (groupOf l1 p).length then generatePattern p (groupOf l1 p)
          else none)).map Pattern.name).contains q.name))).map Pattern.strip
      = (sortPats (((pfxKeys l2).filterMap (fun p =>
        if 3 ≤ (groupOf l2 p).length then generatePattern p (groupOf l2 p) else none))
      ++ tailwindPatterns.filter (fun q =>
        !(((pfxKeys l2).filterMap (fun p =>
          if 3 ≤ (groupOf l2 p).length then generatePattern p (groupOf l2 p)
          else none)).map Pattern.name).contains q.name))).map Pattern.strip
    apply map_strip_sortPats_congr
    rw [List.map_append, List.map_append, hlearned, hnames]
  have hlit : (Train l1).literalClasses = (Train l2).literalClasses := by
    show sortStr (((pfxKeys l1).filter (fun p => (groupOf l1 p).length < 3)).flatMap
        (fun p => groupOf l1 p))
      = sortStr (((pfxKeys l2).filter (fun p => (groupOf l2 p).length < 3)).flatMap
        (fun p => groupOf l2 p))
    apply sortStr_eq_of_perm
    have hfk : (pfxKeys l1).filter (fun p => (groupOf l1 p).length < 3)
        = (pfxKeys l2).filter (fun p => (groupOf l2 p).length < 3) := by
      rw [← hkeys]
      apply List.filter_congr
      intro p _
      simp [hglen p]
    rw [hfk]
    exact flatMap_perm_congr _ _ _ (fun p _ => hgroups p)
  unfold configSkeleton
  rw [hpat, hlit]
  rfl

/--
Witness for C8 amended at two concrete iteration orders of the same set.
-/
theorem claim_train_determinism_amended_witness :
    configSkeleton (Train ["a-1", "a-2", "a-3"])
      = configSkeleton (Train ["a-2", "a-1", "a-3"]) :=
  claim_train_determinism_amended ["a-1", "a-2", "a-3"] ["a-2", "a-1", "a-3"] (by decide)

theorem print_rlits (l : List Char) : (rlits l).print = (l.map escChar).flatten := by
  induction l with
  | nil => rfl
  | cons c rest ih =>
    show escChar c ++ (rlits rest).print = _
    rw [ih]
    simp

theorem print_rlits_quoteMeta (s : String) : (rlits s.data).print = (quoteMeta s).data := by
  rw [print_rlits]
  rfl

theorem print_rlits_word (s : String) (h : isWordSfx s = true) :
    (rlits s.data).print = s.data := by
  rw [print_rlits_quoteMeta, quoteMeta_eq_self_of_word s h]

theorem exists_regex_joinBar (l : List String)
    (h : ∀ t ∈ l, ∃ e : Regex false, e.print = t.data) (hne : l ≠ []) :
    ∃ e : Regex false, e.print = (joinBar l).data := by
  induction l with
  | nil => exact absurd rfl hne
  | cons s rest ih =>
    cases rest with
    | nil => simpa [joinBar] using h s (by simp)
    | cons s2 rest2 =>
      obtain ⟨e1, he1⟩ := h s (by simp)
      obtain ⟨e2, he2⟩ := ih (fun t ht => h t (by simp [ht])) (by simp)
      refine ⟨.alt e1 e2, ?_⟩
      show e1.print ++ '|' :: e2.print = (s ++ "|" ++ joinBar (s2 :: rest2)).data
      rw [he1, he2, String.data_append, String.data_append]
      simp

theorem parts_have_regex (sfx : List String) (t : String)
    (ht : t ∈ (sfx.filter (fun s => !isNumericSfx s)).map
      (fun s => if isWordSfx s then s else quoteMeta s)) :
    ∃ e : Regex false, e.print = t.data := by
  obtain ⟨s, _, hst⟩ := List.mem_map.mp ht
  by_cases hw : isWordSfx s = true
  · rw [if_pos hw] at hst
    exact ⟨rlits s.data, by rw [print_rlits_word s hw, hst]⟩
  · rw [if_neg hw] at hst
    exact ⟨rlits s.data, by rw [print_rlits_quoteMeta, hst]⟩

theorem sortStr_mem {l : List String} {t : String} (h : t ∈ sortStr l) : t ∈ l := by
  rw [sortStr, List.mem_insertionSort] at h
  exact h

theorem sortStr_ne_nil {l : List String} (h : l ≠ []) : sortStr l ≠ [] := by
  intro hcontra
  apply h
  have hp : l.Perm (sortStr l) := (List.perm_insertionSort lexLe l).symm
  rw [hcontra] at hp
  exact hp.eq_nil

theorem word_not_numeric (s : String) (hw : isWordSfx s = true) : isNumericSfx s = false := by
  by_contra hcontra
  rw [Bool.not_eq_false] at hcontra
  rw [numeric_not_word s hcontra] at hw
  exact Bool.false_ne_true hw

theorem generatePattern_none_of_empty (pfx : String) (g : List String)
    (hsfx : ((g.map (suffixOf pfx)).filter (fun s => s ≠ "")).dedup = ([] : List String)) :
    generatePattern pfx g = none := by
  unfold generatePattern
  rw [if_pos hsfx]

theorem generatePattern_regex_compiles (pfx : String) (g : List String) (pat : Pattern)
    (h : generatePattern pfx g = some pat) : compilesRE pat.regex := by
  have h1 : ("^" : String).data = ['^'] := rfl
  have h2m : ("-?(\\d+|" : String).data = ['-', '?', '(', '\\', 'd', '+', '|'] := rfl
  have h2n : ("-?\\d+$" : String).data = ['-', '?', '\\', 'd', '+', '$'] := rfl
  have h2a : ("-?(" : String).data = ['-', '?', '('] := rfl
  have h3 : (")$" : String).data = [')', '$'] := rfl
  have hesc : escChar '-' = ['-'] := rfl
  by_cases hsfx : ((g.map (suffixOf pfx)).filter (fun s => s ≠ "")).dedup = ([] : List String)
  · rw [generatePattern_none_of_empty pfx g hsfx] at h
    exact absurd h (by simp)
  · by_cases hnum : (((g.map (suffixOf pfx)).filter (fun s => s ≠ "")).dedup).any
        isNumericSfx = true
    · by_cases hword : (((g.map (suffixOf pfx)).filter (fun s => s ≠ "")).dedup).any
          isWordSfx = true
      · rw [generatePattern_eq_of_mixed pfx g hsfx hnum hword] at h
        obtain ⟨s, hs, hsw⟩ := List.any_eq_true.mp hword
        have hpartsne : ((((g.map (suffixOf pfx)).filter (fun s => s ≠ "")).dedup.filter
            (fun s => !isNumericSfx s)).map
              (fun s => if isWordSfx s then s else quoteMeta s)) ≠ [] := by
          intro hcontra
          have hmem : (if isWordSfx s then s else quoteMeta s) ∈
              ((((g.map (suffixOf pfx)).filter (fun s => s ≠ "")).dedup.filter
              (fun s => !isNumericSfx s)).map
                (fun s => if isWordSfx s then s else quoteMeta s)) :=
            List.mem_map_of_mem _
              (List.mem_filter.mpr ⟨hs, by simp [word_not_numeric s hsw]⟩)
          rw [hcontra] at hmem
          exact absurd hmem (List.not_mem_nil _)
        obtain ⟨eJoin, he⟩ := exists_regex_joinBar _
          (fun t ht => parts_have_regex _ t (sortStr_mem ht)) (sortStr_ne_nil hpartsne)
        cases h
        refine ⟨false, Regex.seq .caret (.seq (rlits pfx.data) (.seq (.opt (.lit '-'))
          (.seq (.grp (.alt (.plus .digit) eJoin)) .dollar))), ?_⟩
        show _ = (("^" ++ quoteMeta pfx ++ "-?(\\d+|" ++ joinBar (sortStr _) ++ ")$")).data
        simp [Regex.print, print_rlits_quoteMeta, hesc, String.data_append, h1, h2m, h3, he]
      · rw [generatePattern_eq_of_numeric pfx g hsfx hnum
          (Bool.not_eq_true _ |>.mp hword)] at h
        cases h
        refine ⟨false, Regex.seq .caret (.seq (rlits pfx.data) (.seq (.opt (.lit '-'))
          (.seq (.plus .digit) .dollar))), ?_⟩
        show _ = (("^" ++ quoteMeta pfx ++ "-?\\d+$")).data
        simp [Regex.print, print_rlits_quoteMeta, hesc, String.data_append, h1, h2n]
    · rw [generatePattern_eq_of_no_numeric pfx g hsfx (Bool.not_eq_true _ |>.mp hnum)] at h
      have hfilter : (((g.map (suffixOf pfx)).filter (fun s => s ≠ "")).dedup).filter
          (fun s => !isNumericSfx s)
          = ((g.map (suffixOf pfx)).filter (fun s => s ≠ "")).dedup := by
        apply List.filter_eq_self.mpr
        intro a ha
        have hna : isNumericSfx a = false := by
          by_contra hcontra
          rw [Bool.not_eq_false] at hcontra
          exact hnum (List.any_eq_true.mpr ⟨a, ha, hcontra⟩)
        simp [hna]
      have hpartsne : ((((g.map (suffixOf pfx)).filter (fun s => s ≠ "")).dedup.filter
          (fun s => !isNumericSfx s)).map
            (fun s => if isWordSfx s then s else quoteMeta s)) ≠ [] := by
        rw [hfilter]
        intro hmap
        exact hsfx (List.map_eq_nil_iff.mp hmap)
      obtain ⟨eJoin, he⟩ := exists_regex_joinBar _
        (fun t ht => parts_have_regex _ t (sortStr_mem ht)) (sortStr_ne_nil hpartsne)
      cases h
      refine ⟨false, Regex.seq .caret (.seq (rlits pfx.data) (.seq (.opt (.lit '-'))
        (.seq (.grp eJoin) .dollar))), ?_⟩
      show _ = (("^" ++ quoteMeta pfx ++ "-?(" ++ joinBar (sortStr _) ++ ")$")).data
      simp [Regex.print, print_rlits_quoteMeta, hesc, String.data_append, h1, h2a, h3, he]

theorem tailwind_compiles : ∀ p ∈ tailwindPatterns, compilesRE p.regex := by
  have hall : tailwindPatterns.all
      (fun p => curatedASTs.any (fun a => decide (a.print = p.regex.data))) = true := by
    decide
  intro p hp
  have hone := List.all_eq_true.mp hall p hp
  rw [List.any_eq_true] at hone
  obtain ⟨a, _, ha⟩ := hone
  exact ⟨a.1, a.2, of_decide_eq_true ha⟩

/--
Claim C10: every pattern regex in a trained configuration compiles —
synthesized regexes quote the prefix and the non-alphabetic suffixes, raw
alternatives are purely alphabetic, and the curated catalogue entries are
fixed valid regexes — so constructing a validator from a freshly trained
configuration never fails, for any compile function that accepts the
modelled RE2 fragment.
-/
theorem claim_trained_patterns_compile (classes : List String) :
    (∀ pat ∈ (Train classes).patterns, compilesRE pat.regex)
  ∧ (∀ compile : String → Option (String → Bool),
      (∀ s, compilesRE s → (compile s).isSome = true) →
      ∃ v, New compile (Train classes) = Except.ok v) := by
  have hmain : ∀ pat ∈ (Train classes).patterns, compilesRE pat.regex := by
    intro pat hpat
    have hmem : pat ∈ ((pfxKeys classes).filterMap (fun p =>
        if 3 ≤ (groupOf classes p).length then generatePattern p (groupOf classes p)
        else none))
      ++ tailwindPatterns.filter (fun q =>
        !(((pfxKeys classes).filterMap (fun p =>
          if 3 ≤ (groupOf classes p).length then generatePattern p (groupOf classes p)
          else none)).map Pattern.name).contains q.name) := by
      have hs : pat ∈ sortPats (((pfxKeys classes).filterMap (fun p =>
          if 3 ≤ (groupOf classes p).length then generatePattern p (groupOf classes p)
          else none))
        ++ tailwindPatterns.filter (fun q =>
          !(((pfxKeys classes).filterMap (fun p =>
            if 3 ≤ (groupOf classes p).length then generatePattern p (groupOf classes p)
            else none)).map Pattern.name).contains q.name)) := hpat
      rw [sortPats] at hs
      exact (List.mem_insertionSort patLE).mp hs
    rcases List.mem_append.mp hmem with hl | hc
    · obtain ⟨key, _, hgen⟩ := List.mem_filterMap.mp hl
      by_cases hbig : 3 ≤ (groupOf classes key).length
      · rw [if_pos hbig] at hgen
        exact generatePattern_regex_compiles key _ pat hgen
      · rw [if_neg hbig] at hgen
        exact absurd hgen (by simp)
    · exact tailwind_compiles pat (List.mem_filter.mp hc).1
  refine ⟨hmain, ?_⟩
  intro compile hcomp
  rcases compileAll_spec compile (Train classes).patterns with
    ⟨⟨l, hok, _⟩, _⟩ | ⟨⟨e, herr⟩, ⟨q, hq, hqn⟩⟩
  · exact ⟨Validator.mk l (Train classes).literalClasses.toFinset
      (Train classes).ignored.toFinset, by simp [New, hok]⟩
  · have hcq := hcomp q.regex (hmain q hq)
    rw [hqn] at hcq
    exact absurd hcq (by simp)

/--
Witness for C10: the curated `opacity` pattern of a freshly trained (empty
reference) configuration compiles, and a validator is constructed
successfully for a compile function accepting the RE2 fragment.
-/
theorem claim_trained_patterns_compile_witness :
    compilesRE "^opacity-\\d+$"
  ∧ ∃ v, New (fun _ => some (fun _ => false)) (Train []) = Except.ok v :=
  ⟨(claim_trained_patterns_compile []).1
    (Pattern.mk "opacity" "^opacity-\\d+$" "Opacity utilities" [] 0) (by decide),
  (claim_trained_patterns_compile []).2 (fun _ => some (fun _ => false)) (fun _ _ => rfl)⟩
